import Mathlib

/-!
Verification development for the ProtView frontend core: the mzML scan
indexer and lazy spectrum extractor (`worker_mzml.js`), the Percolator
`.pin` listing parser (`pin_parser.js`), and the asynchronous coordinator
in `app.js` that correlates the two workers' responses.

Modelling conventions:
* JavaScript strings are modelled as `List Char`; byte sources are modelled
  as `List Char` under the single-byte-character assumption (the decoder is
  treated as the identity, which matches the code for ASCII content).
* JavaScript numbers are modelled as `Int` or `Nat`; `parseInt` is modelled
  faithfully including whitespace skipping, sign and the `0x` prefix, with
  `NaN` rendered as `none`.
* The worker loops are written with an explicit fuel argument so that every
  definition is structurally recursive and kernel-evaluable; the fuel is
  always instantiated large enough, and the characterisation lemmas show
  the fuel never runs out on the instantiated calls.
-/

/-! ### Generic list helpers -/

/-- Positional lookup on a list, `l[i]` as `Option`, modelling JavaScript
indexing where an out-of-range access yields `undefined`. -/
def idxGet? {α : Type} : List α → Nat → Option α
  | [], _ => none
  | a :: _, 0 => some a
  | _ :: t, n + 1 => idxGet? t n

/-- Length of the maximal prefix whose elements all satisfy `p`. -/
def countWhile {α : Type} (p : α → Bool) : List α → Nat
  | [] => 0
  | a :: t => if p a then countWhile p t + 1 else 0

/-- `listStarts pat l` holds when `pat` occurs at the head of `l`. -/
def listStarts {α : Type} [DecidableEq α] : List α → List α → Bool
  | [], _ => true
  | _ :: _, [] => false
  | a :: ps, b :: t => if a = b then listStarts ps t else false

/-- Index of the first occurrence of `pat` inside `l` (JavaScript
`String.indexOf`), `none` when `pat` never occurs. -/
def firstOccur {α : Type} [DecidableEq α] (pat : List α) : List α → Option Nat
  | [] => if listStarts pat [] then some 0 else none
  | a :: t => if listStarts pat (a :: t) then some 0 else (firstOccur pat t).map (· + 1)

/-- JavaScript `Map.set` / object property write on an association list:
an existing key has its value replaced in place, a new key is appended. -/
def setEntry {α β : Type} [DecidableEq α] : List (α × β) → α → β → List (α × β)
  | [], k, v => [(k, v)]
  | (k', v') :: t, k, v => if k' = k then (k', v) :: t else (k', v') :: setEntry t k v

/-- Lookup in an association list (JavaScript `Map.get`). -/
def mapLookup {α β : Type} [DecidableEq α] : List (α × β) → α → Option β
  | [], _ => none
  | (k', v) :: t, k => if k' = k then some v else mapLookup t k

/-- Descending backtracking search: try `f n`, then `f (n-1)`, …, `f 0`,
returning the first (that is, the greediest) success. -/
def descSearch {α : Type} (f : Nat → Option α) : Nat → Option α
  | 0 => f 0
  | n + 1 => match f (n + 1) with
    | some r => some r
    | none => descSearch f n

/-- Ascending bounded search: try `f i`, `f (i+1)`, … for `fuel` steps,
returning the first success together with its index. -/
def ascFind {α : Type} (f : Nat → Option α) : Nat → Nat → Option (Nat × α)
  | _, 0 => none
  | i, fuel + 1 => match f i with
    | some r => some (i, r)
    | none => ascFind f (i + 1) fuel

/-! ### JavaScript primitive models -/

/-- The JavaScript `\s` / `StrWhiteSpace` character class (whitespace,
line terminators, NBSP and the Unicode space separators). -/
def jsWs (c : Char) : Bool :=
  c.val == 9 || c.val == 10 || c.val == 11 || c.val == 12 || c.val == 13 ||
  c.val == 32 || c.val == 160 || c.val == 0x1680 ||
  (0x2000 ≤ c.val && c.val ≤ 0x200A) || c.val == 0x2028 || c.val == 0x2029 ||
  c.val == 0x202F || c.val == 0x205F || c.val == 0x3000 || c.val == 0xFEFF

/-- JavaScript `String.prototype.trim`. -/
def jsTrim (l : List Char) : List Char :=
  ((l.dropWhile jsWs).reverse.dropWhile jsWs).reverse

/-- JavaScript `String.prototype.split` with a single-character separator. -/
def splitOnCh (sep : Char) : List Char → List (List Char)
  | [] => [[]]
  | c :: t =>
    if c = sep then [] :: splitOnCh sep t
    else match splitOnCh sep t with
      | [] => [[c]]
      | h :: r => (c :: h) :: r

/-- Prepend a character to the first piece of a split result. -/
def consHead (c : Char) : List (List Char) → List (List Char)
  | [] => [[c]]
  | h :: r => (c :: h) :: r

/-- `text.split(/\r?\n/)`: split on `\n`, also consuming an immediately
preceding `\r`; a `\r` not followed by `\n` is an ordinary character. -/
def splitLinesJS : List Char → List (List Char)
  | [] => [[]]
  | '\r' :: '\n' :: t => [] :: splitLinesJS t
  | '\n' :: t => [] :: splitLinesJS t
  | c :: t => consHead c (splitLinesJS t)

/-- Numeric value of a decimal digit run. -/
def digitsToNat (l : List Char) : Nat :=
  l.foldl (fun a c => a * 10 + (c.toNat - 48)) 0

/-- Hex digit test. -/
def isHexDigitB (c : Char) : Bool :=
  c.isDigit || ('a' ≤ c && c ≤ 'f') || ('A' ≤ c && c ≤ 'F')

/-- Numeric value of a hex digit. -/
def hexVal (c : Char) : Nat :=
  if c.isDigit then c.toNat - 48
  else if 'a' ≤ c && c ≤ 'f' then c.toNat - 87
  else c.toNat - 55

/-- Magnitude part of JavaScript `parseInt` with no radix argument: an
optional `0x`/`0X` prefix selects base 16, otherwise the longest leading
decimal digit run is taken; an empty digit run is `NaN` (`none`). -/
def parseIntMag : List Char → Option Nat
  | '0' :: 'x' :: r =>
    let ds := r.takeWhile isHexDigitB
    if ds.isEmpty then none else some (ds.foldl (fun a c => a * 16 + hexVal c) 0)
  | '0' :: 'X' :: r =>
    let ds := r.takeWhile isHexDigitB
    if ds.isEmpty then none else some (ds.foldl (fun a c => a * 16 + hexVal c) 0)
  | l =>
    let ds := l.takeWhile Char.isDigit
    if ds.isEmpty then none else some (digitsToNat ds)

/-- JavaScript `parseInt(s)`: skip leading whitespace, read an optional
sign, then the magnitude; `NaN` is `none`. -/
def parseIntJS (l : List Char) : Option Int :=
  match l.dropWhile jsWs with
  | '-' :: r => (parseIntMag r).map (fun n => -(n : Int))
  | '+' :: r => (parseIntMag r).map (fun n => (n : Int))
  | r => (parseIntMag r).map (fun n => (n : Int))

/-- `parseInt` applied to a possibly-`undefined` field: JavaScript
coerces `undefined` to the string `"undefined"`, which parses to `NaN`. -/
def parseIntField : Option (List Char) → Option Int
  | none => none
  | some s => parseIntJS s

/-- ASCII lower-casing, modelling `String.prototype.toLowerCase` on the
ASCII column names this code compares. -/
def lowerList (l : List Char) : List Char := l.map Char.toLower

/-! ### pin_parser.js -/

/-- One row of the parsed identification listing (`pin_parser.js` pushes
objects with exactly these fields). -/
structure Peptide where
  scan_nr : Int
  spec_id : List Char
  sequence : List Char
  charge : Int
deriving DecidableEq

/-- `cols[idx]` where `idx` may be `-1` (modelled `none`): the result is
`undefined` (`none`) for `-1` or an out-of-range index. -/
def getField (cols : List (List Char)) : Option Nat → Option (List Char)
  | none => none
  | some i => idxGet? cols i

/-- The header-name-to-position map: `header.forEach((col, idx) =>
colMap[col.trim()] = idx)`, with JavaScript object write semantics. -/
def buildColMap (header : List (List Char)) : List (List Char × Nat) :=
  (header.enum).foldl (fun m p => setEntry m (jsTrim p.2) p.1) []

/-- `findCol`: for each candidate in order, scan the map entries in
insertion order for a case-insensitive name match and return its value;
`-1` (modelled `none`) when nothing matches. -/
def findCol (colMap : List (List Char × Nat)) (candidates : List (List Char)) : Option Nat :=
  candidates.findSome? (fun c =>
    colMap.findSome? (fun kv =>
      if lowerList kv.1 = lowerList c then some kv.2 else none))

/-- The recognised one-hot charge columns: every map key whose lower-cased
name starts with `charge` and whose second `_`-separated segment parses as
an integer, paired as (encoded charge, column position), in key order. -/
def chargeColsOf (colMap : List (List Char × Nat)) : List (Int × Nat) :=
  colMap.filterMap (fun kv =>
    if listStarts ("charge".toList) (lowerList kv.1) then
      match splitOnCh '_' kv.1 with
      | _ :: p1 :: _ => (parseIntJS p1).map (fun z => (z, kv.2))
      | _ => none
    else none)

/-- Row charge resolution: the encoded state of the first charge column
whose field parses to the integer 1, defaulting to 2. -/
def chargeOf (ccs : List (Int × Nat)) (cols : List (List Char)) : Int :=
  match ccs.find? (fun cc => decide (parseIntField (getField cols (some cc.2)) = some 1)) with
  | some cc => cc.1
  | none => 2

/-- Swap `[` for `(` and `]` for `)`, character by character. -/
def bracketSwap (l : List Char) : List Char :=
  l.map (fun c => if c = '[' then '(' else if c = ']' then ')' else c)

/-- JavaScript `String.prototype.includes` with a one-character needle. -/
def elemCh (c : Char) : List Char → Bool
  | [] => false
  | a :: t => if a = c then true else elemCh c t

/-- Peptide sequence cleaning from `pin_parser.js`: when the value
contains a dot, three or more dot-segments keep the second segment, and
exactly two segments keep the first segment longer than two characters
(falling back to the raw value); then brackets become parentheses. -/
def normalizeSeq (s : List Char) : List Char :=
  let s1 :=
    if elemCh '.' s then
      let parts := splitOnCh '.' s
      if 3 ≤ parts.length then parts.getD 1 []
      else if parts.length = 2 then
        match parts.find? (fun p => decide (2 < p.length)) with
        | some p => p
        | none => s
      else s
    else s
  bracketSwap s1

/-- The `specId` field: `specIdIdx !== -1 ? cols[specIdIdx] : ""`. -/
def specIdOf (cols : List (List Char)) : Option Nat → List Char
  | some i => (idxGet? cols i).getD []
  | none => []

/-- The peptide field: `cols[peptideIdx] || ""`. -/
def peptideOf (cols : List (List Char)) (pIdx : Option Nat) : List Char :=
  (getField cols pIdx).getD []

/-- Processing of one data row of the listing: skip a row that trims to
nothing, skip a row with fewer fields than the header, skip a row whose
identifier field does not parse as an integer, otherwise build the record. -/
def processRow (hl : Nat) (si pIdx spIdx : Option Nat) (ccs : List (Int × Nat))
    (line : List Char) : Option Peptide :=
  let t := jsTrim line
  if t.isEmpty then none
  else
    let cols := splitOnCh '\t' t
    if cols.length < hl then none
    else
      match parseIntField (getField cols si) with
      | some n => some ⟨n, specIdOf cols spIdx, normalizeSeq (peptideOf cols pIdx), chargeOf ccs cols⟩
      | none => none

/-- The listing's lines, `text.split(/\r?\n/)`. -/
def linesOf (text : List Char) : List (List Char) := splitLinesJS text

/-- The header fields of the listing. -/
def headerOf (text : List Char) : List (List Char) :=
  splitOnCh '\t' ((linesOf text).headD [])

/-- The resolved column map of the listing. -/
def colMapOf (text : List Char) : List (List Char × Nat) :=
  buildColMap (headerOf text)

/-- The identifier-column aliases tried by `parsePin`. -/
def scanAliases : List (List Char) := ["ScanNr".toList, "scannr".toList, "ScanNum".toList]

/-- The peptide-column aliases tried by `parsePin`. -/
def peptideAliases : List (List Char) := ["Peptide".toList, "peptide".toList]

/-- The label-column aliases tried by `parsePin`. -/
def specIdAliases : List (List Char) := ["SpecId".toList, "specid".toList, "id".toList]

/-- The resolved identifier column of the listing. -/
def scanIdxOf (text : List Char) : Option Nat := findCol (colMapOf text) scanAliases

/-- `parsePin` from `pin_parser.js` (the resolved value of the returned
promise): fewer than two lines resolve to the empty list; otherwise the
data rows are processed in order, dropped rows silently excluded. -/
def parsePin (text : List Char) : List Peptide :=
  let lines := linesOf text
  if lines.length < 2 then []
  else
    lines.tail.filterMap
      (processRow (headerOf text).length (scanIdxOf text)
        (findCol (colMapOf text) peptideAliases)
        (findCol (colMapOf text) specIdAliases)
        (chargeColsOf (colMapOf text)))

/-! ### Claim-side definitions for the parser

These restate parts of the specification in its own words, to be compared
with the definitions above, which are translated from the code. -/

/-- The sequence normalization exactly as the specification words it:
exactly three dot-segments keep the middle one, any other segment count
keeps the longest segment of length greater than two (raw value if none),
then brackets become parentheses. -/
def specNormalizeSeq (s : List Char) : List Char :=
  let parts := splitOnCh '.' s
  let s1 :=
    if parts.length = 3 then parts.getD 1 []
    else
      match parts.foldl
        (fun best seg =>
          if decide (2 < seg.length) &&
              (match best with | none => true | some b => decide (List.length b < seg.length))
          then some seg else best) none with
      | some seg => seg
      | none => s
  bracketSwap s1

/-- The sequence normalization as amended to match the code: three or
more dot-segments keep the second one, exactly two keep the first segment
of length greater than two (raw value if none), a dot-free value is kept
unchanged, then brackets become parentheses. -/
def amendedNormalizeSeq (s : List Char) : List Char :=
  let parts := splitOnCh '.' s
  let s1 :=
    if 3 ≤ parts.length then parts.getD 1 []
    else if parts.length = 2 then ((parts.filter (fun p => decide (2 < p.length))).headD s)
    else s
  bracketSwap s1

/-- The claim's per-row validity condition: at least as many tab-separated
fields as the header, and an identifier field that parses as an integer. -/
def specValidRow (hl : Nat) (si : Option Nat) (line : List Char) : Bool :=
  let cols := splitOnCh '\t' (jsTrim line)
  decide (hl ≤ cols.length) && (parseIntField (getField cols si)).isSome

/-- The record built from a (valid) data row. -/
def extractRow (si pIdx spIdx : Option Nat) (ccs : List (Int × Nat))
    (line : List Char) : Peptide :=
  let cols := splitOnCh '\t' (jsTrim line)
  ⟨(parseIntField (getField cols si)).getD 0, specIdOf cols spIdx,
    normalizeSeq (peptideOf cols pIdx), chargeOf ccs cols⟩

/-- The claim-side charge resolution: the encoded state of the first
asserted one-hot charge column, with fixed default 2. -/
def specResolveCharge (ccs : List (Int × Nat)) (cols : List (List Char)) : Int :=
  match ccs.filter (fun cc => decide (parseIntField (getField cols (some cc.2)) = some 1)) with
  | [] => 2
  | cc :: _ => cc.1

/-! ### worker_mzml.js: the scan index builder

The marker pattern is the literal regex from `buildIndex`:
`/<spectrum\s+[^>]*id="[^"]*scan=(\d+)"/g`.  The matcher below implements
its backtracking semantics at a fixed start position: the literal head,
one whitespace character standing for the greedy `\s+` (whitespace is not
`>`, so folding the rest of the `\s+` run into `[^>]*` reaches exactly
the same matches and the same greedy end), then a greedy, backtracking
choice of the `id="` position inside the `>`-free run and of the `scan=`
position inside the `"`-free run, then the digit capture closed by `"`. -/

/-- Character at an absolute position of the source. -/
def charAt (s : List Char) (i : Nat) : Option Char := idxGet? s i

/-- The literal `lit` occurs at position `i` of `s`. -/
def litAt (s : List Char) (i : Nat) : List Char → Bool
  | [] => true
  | c :: r => (charAt s i == some c) && litAt s (i + 1) r

/-- Length of the maximal run of characters satisfying `p` starting at
position `i` of `s`. -/
def runLen (s : List Char) (i : Nat) (p : Char → Bool) : Nat :=
  countWhile p (s.drop i)

/-- Attempt the tail `scan=(\d+)"` at position `m`: the digit run is
greedy and the closing quote must follow it immediately; the returned
pair is (position one past the whole match, captured integer). -/
def scanTailAt (s : List Char) (m : Nat) : Option (Nat × Nat) :=
  if litAt s m ("scan=".toList) then
    let r := runLen s (m + 5) Char.isDigit
    if 1 ≤ r ∧ charAt s (m + 5 + r) = some '"' then
      some (m + 5 + r + 1, digitsToNat ((s.drop (m + 5)).take r))
    else none
  else none

/-- Attempt `id="[^"]*scan=(\d+)"` at position `k`, with the greedy
(largest-first) choice of the `scan=` position. -/
def idTailAt (s : List Char) (k : Nat) : Option (Nat × Nat) :=
  if litAt s k ("id=".toList ++ ['"']) then
    descSearch (fun mRel => scanTailAt s (k + 4 + mRel)) (runLen s (k + 4) (fun c => c ≠ '"'))
  else none

/-- Attempt the whole marker pattern at position `i`, with the greedy
(largest-first) choice of the `id="` position; the result is (position
one past the match, captured scan number). -/
def patMatchAt (s : List Char) (i : Nat) : Option (Nat × Nat) :=
  if litAt s i ("<spectrum".toList) && (charAt s (i + 9)).any jsWs then
    descSearch (fun kRel => idTailAt s (i + 10 + kRel)) (runLen s (i + 10) (fun c => c ≠ '>'))
  else none

/-- First pattern match at a position `≥ i` (the scan the regex engine
performs from `lastIndex`). -/
def findFrom (s : List Char) (i : Nat) : Option (Nat × Nat × Nat) :=
  (ascFind (patMatchAt s) i (s.length + 1 - i)).map (fun p => (p.1, p.2))

/-- The `while ((match = regex.exec(text)) !== null)` loop: emit
(start, end, capture) triples left to right, resuming each search at the
previous match's end.  The fuel only bounds the recursion; every match
advances the position, so `s.length + 1` steps always suffice. -/
def execGo (s : List Char) : Nat → Nat → List (Nat × Nat × Nat)
  | 0, _ => []
  | fuel + 1, pos =>
    match findFrom s pos with
    | none => []
    | some (i, e, n) => (i, e, n) :: execGo s fuel e

/-- All regex matches of one chunk, in order. -/
def execAll (s : List Char) : List (Nat × Nat × Nat) :=
  execGo s (s.length + 1) 0

/-- One chunk's contribution to the index: each match is recorded under
its captured scan number with value `offset + match.index`. -/
def insertChunk (offset : Nat) (acc : List (Nat × Nat)) (ms : List (Nat × Nat × Nat)) :
    List (Nat × Nat) :=
  ms.foldl (fun m pr => setEntry m pr.2.2 (offset + pr.1)) acc

/-- The chunked scan of `buildIndex`, parameterised by chunk size `c` and
overlap `o` (the code instantiates `c` = 10 MiB and `o` = 1 KiB): scan
the slice `[offset, offset + c)`, record its matches by absolute offset,
then advance by `c - o` while `offset < file.size`.  The JavaScript loop
never terminates when `o ≥ c`; the fuel `src.length + 1` is exhausted
only in that degenerate case, which no claim concerns. -/
def buildGo (c o : Nat) (src : List Char) : Nat → Nat → List (Nat × Nat) → List (Nat × Nat)
  | 0, _, acc => acc
  | fuel + 1, offset, acc =>
    if offset < src.length then
      buildGo c o src fuel (offset + (c - o))
        (insertChunk offset acc (execAll ((src.drop offset).take c)))
    else acc

/-- The scan index produced for a source with chunk size `c`, overlap `o`. -/
def buildIndexMap (c o : Nat) (src : List Char) : List (Nat × Nat) :=
  buildGo c o src (src.length + 1) 0 []

/-- `buildIndex` with the constants of `worker_mzml.js`
(`CHUNK_SIZE` = 10 MiB, `OVERLAP` = 1024). -/
def buildIndex (src : List Char) : List (Nat × Nat) :=
  buildIndexMap (10 * 1024 * 1024) 1024 src

/-! ### worker_mzml.js: the spectrum extractor -/

/-- The closing marker `"</spectrum>"` searched by `getSpectrum`. -/
def endTag : List Char := "</spectrum>".toList

/-- `file.slice(a, b)` on a byte source: the half-open clamped window. -/
def sliceText (file : List Char) (a b : Nat) : List Char :=
  (file.take b).drop a

/-- The accumulation loop of `getSpectrum`: read `rs`-sized slices from
`cur`, appending to `acc`; stop and truncate at the end of the first
occurrence of the closing marker, or stop with the accumulated buffer
when the source is exhausted.  The fuel `file.length + 1` always
suffices (shown in the characterisation lemma). -/
def extractGo (file : List Char) (rs : Nat) : Nat → Nat → List Char → List Char
  | 0, _, acc => acc
  | fuel + 1, cur, acc =>
    let text := sliceText file cur (cur + rs)
    let buf := acc ++ text
    match firstOccur endTag buf with
    | some idx => buf.take (idx + endTag.length)
    | none =>
      if text.length < rs ∧ file.length ≤ cur + rs then buf
      else extractGo file rs fuel (cur + rs) buf

/-- `READ_SIZE` of `getSpectrum` (50 KiB). -/
def READ_SIZE : Nat := 50 * 1024

/-- `getSpectrum(scanNr)` up to the external wasm call: `null` (here
`none`) when the scan number is absent from the index — the `NotFound`
outcome — otherwise the raw XML segment accumulated from the recorded
offset, which the code then hands unchanged to the external
`parse_spectrum`. -/
def getSpectrum (file : List Char) (scanIndex : List (Nat × Nat)) (scanNr : Nat) :
    Option (List Char) :=
  match mapLookup scanIndex scanNr with
  | none => none
  | some startOffset => some (extractGo file READ_SIZE (file.length + 1) startOffset [])

/-- The segment the specification says extraction returns: the suffix of
the file from the recorded offset, truncated at the end of the first
closing marker when one occurs, the whole suffix otherwise. -/
def expectedSegment (file : List Char) (startOffset : Nat) : List Char :=
  match firstOccur endTag (file.drop startOffset) with
  | some i => (file.drop startOffset).take (i + endTag.length)
  | none => file.drop startOffset

/-! ### app.js: the coordinator

The state machine below is the message-level behaviour of `app.js`:
`loadSpectrum` (row click), the `SPECTRUM_DATA` branch of
`mzmlWorker.onmessage`, and the `MATCH_RESULT` branch of
`calcWorker.onmessage`.  Spectra and match arrays are opaque payloads,
modelled as `Nat` tokens (`app.js` only stores and forwards them); `null`
spectra are `none`.  A render call records which payloads reached
`renderPlot` and with which title arguments. -/

/-- The matches argument passed to `renderPlot`: a worker result, or the
literal empty array of the raw-display branch. -/
inductive MatchesArg
  | calc (token : Nat)
  | empty
deriving DecidableEq

/-- The title arguments passed to `renderPlot`: a peptide's sequence and
charge, or the `Scan N (Raw)` / `"?"` pair of the raw-display branch. -/
inductive PlotLabel
  | pep (seq : List Char) (charge : Int)
  | raw (scanNr : Int)
deriving DecidableEq

/-- One call crossing the render boundary. -/
structure RenderCall where
  peaks : Nat
  matchData : MatchesArg
  label : PlotLabel
deriving DecidableEq

/-- One `CALC_AND_MATCH` request posted to the calculation worker
(tolerance 0.5 Da, recorded in tenths). -/
structure CalcReq where
  sequence : List Char
  charge : Int
  peaks : Nat
  tolTenths : Nat
deriving DecidableEq

/-- The mutable state of `app.js` together with the observable request
and render logs.  `crashes` counts `MATCH_RESULT` deliveries that would
dereference a `null` `currentPeptideData` (an uncaught TypeError in the
code); no claim trace reaches it. -/
structure AppState where
  peptides : List Peptide
  currentPeptideData : Option Peptide
  currentSpectrumData : Option Nat
  specReqs : List Int
  calcReqs : List CalcReq
  renders : List RenderCall
  crashes : Nat
deriving DecidableEq

/-- The events the coordinator reacts to: a grid row click, a
`SPECTRUM_DATA` message, a `MATCH_RESULT` message. -/
inductive Ev
  | select (p : Peptide)
  | specData (scanNr : Int) (spectrum : Option Nat)
  | matchRes (matchToken : Nat)
deriving DecidableEq

/-- One coordinator step, from `app.js`:
* `select` is `loadSpectrum`: overwrite `currentPeptideData`, clear
  `currentSpectrumData`, post `GET_SPECTRUM`;
* `specData` stores the spectrum, looks the peptide up by the response's
  scan number, and either posts `CALC_AND_MATCH`, renders the raw
  spectrum (no peptide), or only reports an error (`null` spectrum);
* `matchRes` renders the current spectrum under the current peptide's
  labels whenever a current spectrum exists. -/
def stepApp (st : AppState) : Ev → AppState
  | .select p =>
    { st with currentPeptideData := some p, currentSpectrumData := none,
              specReqs := st.specReqs ++ [p.scan_nr] }
  | .specData scanNr spectrum =>
    let st1 := { st with currentSpectrumData := spectrum }
    match st1.peptides.find? (fun q => q.scan_nr == scanNr), spectrum with
    | some pep, some s =>
      { st1 with calcReqs := st1.calcReqs ++ [⟨pep.sequence, pep.charge, s, 5⟩] }
    | none, some s =>
      { st1 with renders := st1.renders ++ [⟨s, .empty, .raw scanNr⟩] }
    | _, none => st1
  | .matchRes m =>
    match st.currentSpectrumData with
    | some s =>
      match st.currentPeptideData with
      | some pd =>
        { st with renders := st.renders ++ [⟨s, .calc m, .pep pd.sequence pd.charge⟩] }
      | none => { st with crashes := st.crashes + 1 }
    | none => st

/-- Run the coordinator over an event list. -/
def runTrace (st : AppState) (evs : List Ev) : AppState :=
  evs.foldl stepApp st

/-- Realisability check for an event list: each worker answers its
requests first-in-first-out, `SPECTRUM_DATA` answers the next outstanding
`GET_SPECTRUM` with the file's content for that scan (`specEnv`), and
`MATCH_RESULT` answers the next outstanding `CALC_AND_MATCH` with the
matcher's result for that request (`calcEnv`); row clicks select listed
peptides.  `sDone`/`cDone` count the responses already delivered. -/
def wfGo (specEnv : Int → Option Nat) (calcEnv : CalcReq → Nat) :
    AppState → Nat → Nat → List Ev → Bool
  | _, _, _, [] => true
  | st, sDone, cDone, ev :: rest =>
    match ev with
    | .select p =>
      st.peptides.contains p && wfGo specEnv calcEnv (stepApp st ev) sDone cDone rest
    | .specData scanNr spectrum =>
      match idxGet? st.specReqs sDone with
      | some req =>
        (req == scanNr) && (spectrum == specEnv scanNr) &&
          wfGo specEnv calcEnv (stepApp st ev) (sDone + 1) cDone rest
      | none => false
    | .matchRes m =>
      match idxGet? st.calcReqs cDone with
      | some req =>
        (m == calcEnv req) && wfGo specEnv calcEnv (stepApp st ev) sDone (cDone + 1) rest
      | none => false

/-- A trace is well formed when the FIFO check passes from the start. -/
def wfTrace (specEnv : Int → Option Nat) (calcEnv : CalcReq → Nat)
    (st : AppState) (evs : List Ev) : Bool :=
  wfGo specEnv calcEnv st 0 0 evs

/-! ### Concrete instances used by counterexamples and witnesses -/

/-- A source whose single marker (span 21) straddles every chunk boundary
of a chunking with overlap 3: the whole source is one marker occurrence. -/
def srcStraddle : List Char := "<spectrum id=\"scan=7\"".toList

/-- A source with a single short marker at offset 2 (span 22). -/
def srcUnique : List Char := "xx<spectrum id=\"scan=42\"yy".toList

/-- A small container file for the extractor: one record from offset 2,
closed by the end marker, followed by trailing bytes. -/
def fileSeg : List Char := "ab<spectrum>z</spectrum>tail".toList

/-- An index recording scan 7 at offset 2 of `fileSeg`. -/
def idxSeg : List (Nat × Nat) := [(7, 2)]

/-- Identification record A (scan 1). -/
def pepA : Peptide := ⟨1, [], "AAA".toList, 2⟩

/-- Identification record B (scan 2). -/
def pepB : Peptide := ⟨2, [], "BBB".toList, 3⟩

/-- Coordinator state right after both records are loaded. -/
def coordInit : AppState := ⟨[pepA, pepB], none, none, [], [], [], 0⟩

/-- The mzML worker's responses: scan 1 holds spectrum 101, scan 2 holds
spectrum 102. -/
def specEnvAB : Int → Option Nat :=
  fun n => if n == 1 then some 101 else if n == 2 then some 102 else none

/-- The matcher's responses: matching against spectrum 101 yields match
set 201, anything else yields 202. -/
def calcEnvAB : CalcReq → Nat :=
  fun r => if r.peaks == 101 then 201 else 202

/-- Selections A then B, both spectra arriving afterwards, then both
match results: B is selected before A's extraction response arrives. -/
def traceStale : List Ev :=
  [.select pepA, .select pepB, .specData 1 (some 101), .specData 2 (some 102),
   .matchRes 201, .matchRes 202]

/-- Selections A then B, then A's spectrum and A's match result, B's
responses still outstanding. -/
def traceMixed : List Ev :=
  [.select pepA, .select pepB, .specData 1 (some 101), .matchRes 201]

/-- Charge columns `charge_1 .. charge_6` at header positions 2..7. -/
def ccs6 : List (Int × Nat) := [(1, 2), (2, 3), (3, 4), (4, 5), (5, 6), (6, 7)]

/-- A data row with `charge_3 = 1` and the other charge columns zero. -/
def rowCharge3 : List Char := "9\tPEPT\t0\t0\t1\t0\t0\t0".toList

/-- A data row with every charge column zero. -/
def rowChargeZero : List Char := "9\tPEPT\t0\t0\t0\t0\t0\t0".toList

/-- A listing with a single line and no newline at all. -/
def textOneLine : List Char := "oneline".toList

/-- A listing whose header has no identifier-column alias. -/
def textNoScanCol : List Char := "foo\tbar\n1\t2".toList

/-! ## Theorems -/

/-! ### Generic list lemmas -/

theorem splitOnCh_ne_nil (sep : Char) (l : List Char) : splitOnCh sep l ≠ [] := by
  cases l with
  | nil => simp [splitOnCh]
  | cons c t =>
    simp only [splitOnCh]
    split
    · simp
    · split <;> simp

theorem elemCh_false_split (sep : Char) (l : List Char) (h : elemCh sep l = false) :
    splitOnCh sep l = [l] := by
  induction l with
  | nil => rfl
  | cons c t ih =>
    by_cases hc : c = sep
    · simp [elemCh, hc] at h
    · simp only [elemCh, if_neg hc] at h
      simp [splitOnCh, hc, ih h]

theorem findFilterHead {α : Type} (p : α → Bool) (l : List α) :
    l.find? p = (l.filter p).head? := by
  induction l with
  | nil => rfl
  | cons a t ih =>
    by_cases h : p a
    · rw [List.find?_cons_of_pos _ h, List.filter_cons_of_pos h]
      rfl
    · rw [List.find?_cons_of_neg _ h, List.filter_cons_of_neg h]
      exact ih

theorem filterMapIf {α β : Type} (f : α → Option β) (p : α → Bool) (g : α → β)
    (h : ∀ x, f x = if p x then some (g x) else none) :
    ∀ l : List α, l.filterMap f = (l.filter p).map g := by
  intro l
  induction l with
  | nil => rfl
  | cons a t ih =>
    by_cases hp : p a
    · simp [List.filterMap_cons, List.filter, h a, hp, ih]
    · simp [List.filterMap_cons, List.filter, h a, hp, ih]

theorem filterMapNone {α β : Type} (f : α → Option β) (h : ∀ x, f x = none) :
    ∀ l : List α, l.filterMap f = [] := by
  intro l
  induction l with
  | nil => rfl
  | cons a t ih => simp [List.filterMap_cons, h a, ih]

theorem consHead_ne_nil (c : Char) (xs : List (List Char)) : consHead c xs ≠ [] := by
  cases xs <;> simp [consHead]

theorem splitLinesJS_ne_nil (l : List Char) : splitLinesJS l ≠ [] := by
  induction l using splitLinesJS.induct with
  | case1 => simp [splitLinesJS]
  | case2 t ih => simp [splitLinesJS]
  | case3 t ih => simp [splitLinesJS]
  | case4 c t h1 h2 ih =>
    rw [splitLinesJS.eq_4 c t h1 h2]
    exact consHead_ne_nil c (splitLinesJS t)

/-! ### Parser lemmas -/

theorem parseIntJS_nil : parseIntJS [] = none := by decide

theorem specValidRow_empty (hl : Nat) (si : Option Nat) (line : List Char)
    (h : jsTrim line = []) : specValidRow hl si line = false := by
  simp only [specValidRow, h]
  cases si with
  | none => simp [getField, parseIntField, Bool.and_eq_false_iff]
  | some i =>
    cases i with
    | zero => simp [getField, splitOnCh, idxGet?, parseIntField, parseIntJS_nil]
    | succ j => simp [getField, splitOnCh, idxGet?, parseIntField]

theorem processRow_eq (hl : Nat) (si pIdx spIdx : Option Nat) (ccs : List (Int × Nat))
    (line : List Char) :
    processRow hl si pIdx spIdx ccs line =
      if specValidRow hl si line then some (extractRow si pIdx spIdx ccs line) else none := by
  simp only [processRow]
  cases hjt : jsTrim line with
  | nil => simp [specValidRow_empty hl si line hjt]
  | cons a t =>
    simp only [List.isEmpty_cons, if_neg Bool.false_ne_true]
    simp only [specValidRow, extractRow, hjt]
    by_cases hlen : (splitOnCh '\t' (a :: t)).length < hl
    · simp [hlen, Nat.not_le_of_lt hlen]
    · have hle : hl ≤ (splitOnCh '\t' (a :: t)).length := Nat.le_of_not_lt hlen
      simp only [if_neg hlen, hle]
      cases hp : parseIntField (getField (splitOnCh '\t' (a :: t)) si) with
      | none => simp [hp]
      | some v => simp [hp]

theorem chargeOf_eq_spec (ccs : List (Int × Nat)) (cols : List (List Char)) :
    chargeOf ccs cols = specResolveCharge ccs cols := by
  simp only [chargeOf, specResolveCharge, findFilterHead]
  cases (ccs.filter (fun cc => decide (parseIntField (getField cols (some cc.2)) = some 1))) with
  | nil => rfl
  | cons a t => rfl

/-! ### Claims about the identification parser -/

/-- C6 counterexample: the claim's own example input `AC[+57.02]DEFGHIK`
normalizes under the code to `AC(+57` (the dot inside the modification
triggers the two-segment fallback, which keeps the first segment longer
than two characters), not to the claimed `AC(+57.02)DEFGHIK`; moreover on
`K.AB.CDEF.R` (four segments) the code keeps the second segment `AB`
while the claim's stated rule keeps the longest qualifying segment
`CDEF`. -/
theorem C6_counterexample :
    normalizeSeq ("AC[+57.02]DEFGHIK".toList) = "AC(+57".toList ∧
    normalizeSeq ("AC[+57.02]DEFGHIK".toList) ≠ "AC(+57.02)DEFGHIK".toList ∧
    normalizeSeq ("K.AB.CDEF.R".toList) = "AB".toList ∧
    specNormalizeSeq ("K.AB.CDEF.R".toList) = "CDEF".toList := by
  refine ⟨by decide, by decide, by decide, by decide⟩

/-- C6 (amended): sequence normalization keeps the second dot-segment
whenever splitting on `.` yields three or more segments; with exactly two
segments it keeps the first segment of length greater than two (raw value
if none); a dot-free value is kept unchanged; then every `[` becomes `(`
and every `]` becomes `)` with no interpretation of the content. -/
theorem C6_amended_normalization (s : List Char) :
    normalizeSeq s = amendedNormalizeSeq s := by
  simp only [normalizeSeq, amendedNormalizeSeq]
  by_cases h : elemCh '.' s = true
  · simp only [h, if_true]
    by_cases h3 : 3 ≤ (splitOnCh '.' s).length
    · simp [h3]
    · simp only [if_neg h3]
      by_cases h2 : (splitOnCh '.' s).length = 2
      · simp only [h2, if_pos rfl, findFilterHead]
        cases hf : (splitOnCh '.' s).filter (fun p => decide (2 < p.length)) with
        | nil => simp
        | cons a t => simp
      · simp [h2]
  · have hf : elemCh '.' s = false := by
      cases hb : elemCh '.' s
      · rfl
      · exact absurd hb h
    simp [hf, elemCh_false_split '.' s hf]

/-- C7: for every data row the resolved charge is the encoded state of
the first recognised one-hot charge column whose field value parses to
the integer 1, with fixed default charge 2 when no charge column is
asserted. -/
theorem C7_charge_resolution (hl : Nat) (si pIdx spIdx : Option Nat)
    (ccs : List (Int × Nat)) (line : List Char) (r : Peptide)
    (h : processRow hl si pIdx spIdx ccs line = some r) :
    r.charge = specResolveCharge ccs (splitOnCh '\t' (jsTrim line)) := by
  rw [processRow_eq] at h
  by_cases hv : specValidRow hl si line = true
  · rw [if_pos hv] at h
    cases h
    exact chargeOf_eq_spec ccs (splitOnCh '\t' (jsTrim line))
  · rw [if_neg hv] at h
    cases h

/-- C7 witness: with columns `charge_1..charge_6` at positions 2..7, a
row asserting `charge_3` resolves to charge 3 and an all-zero row
resolves to the default charge 2. -/
theorem C7_witness :
    (processRow 8 (some 0) (some 1) none ccs6 rowCharge3 =
        some ⟨9, [], "PEPT".toList, 3⟩ ∧
      Peptide.charge ⟨9, [], "PEPT".toList, 3⟩ =
        specResolveCharge ccs6 (splitOnCh '\t' (jsTrim rowCharge3)) ∧
      specResolveCharge ccs6 (splitOnCh '\t' (jsTrim rowCharge3)) = 3) ∧
    (processRow 8 (some 0) (some 1) none ccs6 rowChargeZero =
        some ⟨9, [], "PEPT".toList, 2⟩ ∧
      Peptide.charge ⟨9, [], "PEPT".toList, 2⟩ =
        specResolveCharge ccs6 (splitOnCh '\t' (jsTrim rowChargeZero)) ∧
      specResolveCharge ccs6 (splitOnCh '\t' (jsTrim rowChargeZero)) = 2) :=
  ⟨⟨by decide, C7_charge_resolution 8 (some 0) (some 1) none ccs6 rowCharge3 _ (by decide),
      by decide⟩,
    ⟨by decide, C7_charge_resolution 8 (some 0) (some 1) none ccs6 rowChargeZero _ (by decide),
      by decide⟩⟩

/-- C8: `parsePin` emits exactly one record per valid data row in input
row order; a data row with fewer tab-separated fields than the header, or
whose identifier field does not parse as an integer, is silently dropped,
so the output is exactly the in-order image of the valid rows. -/
theorem C8_parse_shape (text : List Char) :
    parsePin text =
      ((linesOf text).tail.filter
          (specValidRow (headerOf text).length (scanIdxOf text))).map
        (extractRow (scanIdxOf text) (findCol (colMapOf text) peptideAliases)
          (findCol (colMapOf text) specIdAliases) (chargeColsOf (colMapOf text))) := by
  simp only [parsePin]
  by_cases h : (linesOf text).length < 2
  · rw [if_pos h]
    cases hl : linesOf text with
    | nil => exact absurd hl (splitLinesJS_ne_nil text)
    | cons a t =>
      cases t with
      | nil => simp
      | cons b r =>
        rw [hl] at h
        simp only [List.length_cons] at h
        omega
  · rw [if_neg h]
    exact filterMapIf _ _ _ (fun line => processRow_eq _ _ _ _ _ line) _

/-- C10: `parsePin` resolves for every decoded text (the embedding is a
total function); an input with fewer than two lines resolves to the empty
list, and a header without any identifier-column alias makes every data
row's identifier lookup fail to parse, so the result is again the empty
list rather than an error. -/
theorem C10_parse_total (text : List Char) :
    ((linesOf text).length < 2 → parsePin text = []) ∧
    (scanIdxOf text = none → parsePin text = []) := by
  constructor
  · intro h
    simp [parsePin, h]
  · intro h
    simp only [parsePin]
    by_cases hlen : (linesOf text).length < 2
    · rw [if_pos hlen]
    · rw [if_neg hlen, h]
      apply filterMapNone
      intro line
      rw [processRow_eq]
      have hv : specValidRow (headerOf text).length none line = false := by
        simp [specValidRow, getField, parseIntField]
      simp [hv]

/-- C10 witness: a one-line input and an input whose header lacks every
identifier alias both parse to the empty list. -/
theorem C10_witness :
    ((linesOf textOneLine).length < 2 ∧ parsePin textOneLine = []) ∧
    (scanIdxOf textNoScanCol = none ∧ parsePin textNoScanCol = []) :=
  ⟨⟨by decide, (C10_parse_total textOneLine).1 (by decide)⟩,
    ⟨by decide, (C10_parse_total textNoScanCol).2 (by decide)⟩⟩

/-! ### Claims about the extractor's NotFound behaviour -/

/-- C5: extraction of an identifier absent from the index fails with the
`NotFound` outcome (`getSpectrum` returns `null`, modelled `none`, before
reading anything); in particular every extraction against an empty index
yields `NotFound` rather than data. -/
theorem C5_notfound_on_absent :
    (∀ (file : List Char) (idx : List (Nat × Nat)) (sn : Nat),
        mapLookup idx sn = none → getSpectrum file idx sn = none) ∧
    (∀ (file : List Char) (sn : Nat), getSpectrum file ([] : List (Nat × Nat)) sn = none) := by
  constructor
  · intro file idx sn h
    simp [getSpectrum, h]
  · intro file sn
    rfl

/-- C5 witness: scan 9 is absent from the index recording only scan 7,
and its extraction yields `none`. -/
theorem C5_witness : mapLookup idxSeg 9 = none ∧ getSpectrum fileSeg idxSeg 9 = none :=
  ⟨by decide, C5_notfound_on_absent.1 fileSeg idxSeg 9 (by decide)⟩

/-! ### Occurrence lemmas for the extraction loop -/

theorem listStarts_length {pat l : List Char} (h : listStarts pat l = true) :
    pat.length ≤ l.length := by
  induction pat generalizing l with
  | nil => exact Nat.zero_le _
  | cons a ps ih =>
    cases l with
    | nil => simp [listStarts] at h
    | cons b t =>
      by_cases hab : a = b
      · simp only [listStarts, if_pos hab] at h
        simpa using ih h
      · simp [listStarts, hab] at h

theorem listStarts_take_iff (pat l : List Char) (m : Nat) :
    listStarts pat (l.take m) = true ↔ listStarts pat l = true ∧ pat.length ≤ m := by
  induction pat generalizing l m with
  | nil => simp [listStarts]
  | cons a ps ih =>
    cases l with
    | nil => simp [listStarts]
    | cons b t =>
      cases m with
      | zero => simp [listStarts]
      | succ m' =>
        by_cases hab : a = b
        · simp only [List.take_succ_cons, listStarts, if_pos hab, List.length_cons]
          rw [ih t m']
          constructor
          · rintro ⟨h1, h2⟩
            exact ⟨h1, by omega⟩
          · rintro ⟨h1, h2⟩
            exact ⟨h1, by omega⟩
        · simp [List.take_succ_cons, listStarts, hab]

theorem firstOccur_some_iff (pat l : List Char) (i : Nat) :
    firstOccur pat l = some i ↔
      (listStarts pat (l.drop i) = true ∧ ∀ j, j < i → listStarts pat (l.drop j) = false) := by
  induction l generalizing i with
  | nil =>
    cases hs : listStarts pat [] with
    | true =>
      have he : firstOccur pat [] = some 0 := by simp [firstOccur, hs]
      rw [he]
      constructor
      · intro h
        cases h
        exact ⟨by simpa using hs, fun j hj => absurd hj (Nat.not_lt_zero j)⟩
      · rintro ⟨_, h2⟩
        rcases Nat.eq_zero_or_pos i with hi | hi
        · rw [hi]
        · exact absurd (h2 0 hi) (by simp [hs])
    | false => simp [firstOccur, hs]
  | cons a t ih =>
    cases hs : listStarts pat (a :: t) with
    | true =>
      have he : firstOccur pat (a :: t) = some 0 := by simp [firstOccur, hs]
      rw [he]
      constructor
      · intro h
        cases h
        exact ⟨by simpa using hs, fun j hj => absurd hj (Nat.not_lt_zero j)⟩
      · rintro ⟨_, h2⟩
        rcases Nat.eq_zero_or_pos i with hi | hi
        · rw [hi]
        · exact absurd (h2 0 hi) (by simp [hs])
    | false =>
      have he : firstOccur pat (a :: t) = (firstOccur pat t).map (· + 1) := by
        simp [firstOccur, hs]
      rw [he]
      cases i with
      | zero =>
        simp only [List.drop_zero]
        constructor
        · intro h
          rcases Option.map_eq_some'.1 h with ⟨y, _, hy⟩
          omega
        · rintro ⟨h1, _⟩
          rw [hs] at h1
          cases h1
      | succ i' =>
        rw [Option.map_eq_some']
        constructor
        · rintro ⟨y, hy, hxy⟩
          have hyi : y = i' := by omega
          rw [hyi] at hy
          rcases (ih i').1 hy with ⟨h1, h2⟩
          refine ⟨by simpa using h1, ?_⟩
          intro j hj
          cases j with
          | zero => simpa using hs
          | succ j' => simpa using h2 j' (by omega)
        · rintro ⟨h1, h2⟩
          refine ⟨i', (ih i').2 ⟨by simpa using h1, ?_⟩, rfl⟩
          intro j' hj'
          simpa using h2 (j' + 1) (by omega)

theorem firstOccur_none_iff (pat l : List Char) :
    firstOccur pat l = none ↔ ∀ i, listStarts pat (l.drop i) = false := by
  induction l with
  | nil =>
    cases hs : listStarts pat [] with
    | true =>
      have he : firstOccur pat [] = some 0 := by simp [firstOccur, hs]
      rw [he]
      constructor
      · intro h; cases h
      · intro h
        exact absurd (h 0) (by simp [hs])
    | false => simp [firstOccur, hs]
  | cons a t ih =>
    cases hs : listStarts pat (a :: t) with
    | true =>
      have he : firstOccur pat (a :: t) = some 0 := by simp [firstOccur, hs]
      rw [he]
      constructor
      · intro h; cases h
      · intro h
        exact absurd (h 0) (by simp [hs])
    | false =>
      have he : firstOccur pat (a :: t) = (firstOccur pat t).map (· + 1) := by
        simp [firstOccur, hs]
      rw [he, Option.map_eq_none', ih]
      constructor
      · intro h i
        cases i with
        | zero => simpa using hs
        | succ i' => simpa using h i'
      · intro h i'
        simpa using h (i' + 1)

/-! ### The extraction loop terminates with the characterised segment -/

theorem extractGo_characterize (file : List Char) (rs : Nat) (hrs : 1 ≤ rs) :
    ∀ (fuel cur : Nat) (acc : List Char),
      file.length + 1 ≤ fuel + cur →
      (∀ i, listStarts endTag ((acc ++ file.drop cur).drop i) = true →
        acc.length < i + endTag.length) →
      extractGo file rs fuel cur acc =
        (match firstOccur endTag (acc ++ file.drop cur) with
         | some i => (acc ++ file.drop cur).take (i + endTag.length)
         | none => acc ++ file.drop cur) := by
  intro fuel
  induction fuel with
  | zero =>
    intro cur acc hfc hinv
    have hd : file.drop cur = [] := List.drop_eq_nil_of_le (by omega)
    rw [hd, List.append_nil] at hinv ⊢
    have hnone : firstOccur endTag acc = none := by
      rw [firstOccur_none_iff]
      intro i
      cases hs : listStarts endTag (acc.drop i) with
      | false => rfl
      | true =>
        exfalso
        have h1 := hinv i hs
        have h2 := listStarts_length hs
        rw [List.length_drop] at h2
        have h3 : 0 < endTag.length := by decide
        omega
    simp [extractGo, hnone]
  | succ fuel ih =>
    intro cur acc hfc hinv
    have hslice : sliceText file cur (cur + rs) = (file.drop cur).take rs := by
      rw [sliceText, List.drop_take]
      congr 1
      omega
    have hdecomp : acc ++ file.drop cur =
        (acc ++ sliceText file cur (cur + rs)) ++ file.drop (cur + rs) := by
      rw [hslice, List.append_assoc]
      congr 1
      rw [← List.drop_drop, List.take_append_drop]
    have hbuflen : acc ++ sliceText file cur (cur + rs) =
        (acc ++ file.drop cur).take (acc ++ sliceText file cur (cur + rs)).length := by
      rw [hdecomp, List.take_left]
    simp only [extractGo]
    cases hocc : firstOccur endTag (acc ++ sliceText file cur (cur + rs)) with
    | some idx =>
      dsimp only
      rcases (firstOccur_some_iff _ _ _).1 hocc with ⟨hstart, hmin⟩
      have hlens : idx + endTag.length ≤ (acc ++ sliceText file cur (cur + rs)).length := by
        have := listStarts_length hstart
        rw [List.length_drop] at this
        have h3 : 0 < endTag.length := by decide
        omega
      have hFstart : listStarts endTag ((acc ++ file.drop cur).drop idx) = true ∧
          endTag.length ≤ (acc ++ sliceText file cur (cur + rs)).length - idx := by
        have := hstart
        rw [hbuflen, List.drop_take] at this
        exact (listStarts_take_iff _ _ _).1 this
      have hoccF : firstOccur endTag (acc ++ file.drop cur) = some idx := by
        rw [firstOccur_some_iff]
        refine ⟨hFstart.1, ?_⟩
        intro j hj
        cases hsj : listStarts endTag ((acc ++ file.drop cur).drop j) with
        | false => rfl
        | true =>
          exfalso
          have hjb : listStarts endTag (((acc ++ sliceText file cur (cur + rs))).drop j) = true := by
            rw [hbuflen, List.drop_take]
            rw [listStarts_take_iff]
            exact ⟨hsj, by omega⟩
          have := hmin j hj
          rw [this] at hjb
          cases hjb
      rw [hoccF]
      dsimp only
      rw [hbuflen, List.take_take, min_eq_left hlens]
    | none =>
      dsimp only
      by_cases hbreak : (sliceText file cur (cur + rs)).length < rs ∧ file.length ≤ cur + rs
      · rw [if_pos hbreak]
        have hFeq : acc ++ file.drop cur = acc ++ sliceText file cur (cur + rs) := by
          rw [hdecomp, List.drop_eq_nil_of_le hbreak.2, List.append_nil]
        rw [hFeq, hocc]
      · rw [if_neg hbreak]
        have hcurb : file.length + 1 ≤ fuel + (cur + rs) := by omega
        have hinv' : ∀ i,
            listStarts endTag (((acc ++ sliceText file cur (cur + rs)) ++ file.drop (cur + rs)).drop i) = true →
            (acc ++ sliceText file cur (cur + rs)).length < i + endTag.length := by
          intro i hs
          rw [← hdecomp] at hs
          by_contra hb
          have hle : i + endTag.length ≤ (acc ++ sliceText file cur (cur + rs)).length := by omega
          have hib : listStarts endTag ((acc ++ sliceText file cur (cur + rs)).drop i) = true := by
            rw [hbuflen, List.drop_take, listStarts_take_iff]
            exact ⟨hs, by omega⟩
          rw [(firstOccur_none_iff _ _).1 hocc i] at hib
          cases hib
        have := ih (cur + rs) (acc ++ sliceText file cur (cur + rs)) hcurb hinv'
        rw [this, ← hdecomp]

/-- C9: for every identifier present in the index, the extraction read
loop terminates within its fuel and returns the suffix of the source from
the recorded offset truncated at the end of the first closing marker, or
the whole suffix when the source is exhausted before a marker occurs. -/
theorem C9_extraction_loop (file : List Char) (idx : List (Nat × Nat)) (sn startOffset : Nat)
    (h : mapLookup idx sn = some startOffset) :
    getSpectrum file idx sn = some (expectedSegment file startOffset) := by
  simp only [getSpectrum, h]
  congr 1
  have hmain := extractGo_characterize file READ_SIZE (by decide) (file.length + 1) startOffset []
    (by omega)
    (by
      intro i _
      have h3 : 0 < endTag.length := by decide
      simpa using by omega)
  rw [List.nil_append] at hmain
  rw [hmain, expectedSegment]

/-- C9 witness: with scan 7 recorded at offset 2 of the small container,
extraction returns the segment from offset 2 truncated at the end of the
closing marker. -/
theorem C9_witness :
    mapLookup idxSeg 7 = some 2 ∧
    getSpectrum fileSeg idxSeg 7 = some (expectedSegment fileSeg 2) ∧
    expectedSegment fileSeg 2 = "<spectrum>z</spectrum>".toList :=
  ⟨by decide, C9_extraction_loop fileSeg idxSeg 7 2 (by decide), by decide⟩

/-! ### Claims about the coordinator -/

/-- C1: the claim fails on the code — `app.js` mints no request token at
all; in the realisable trace where selection A precedes selection B and
both extraction responses arrive afterwards, A's match result 201 also
reaches the render boundary (paired with B's spectrum 102 and B's
labels), so not only B's eventual result is rendered. -/
theorem C1_stale_match_reaches_render :
    wfTrace specEnvAB calcEnvAB coordInit traceStale = true ∧
    (runTrace coordInit traceStale).renders =
      [⟨102, .calc 201, .pep ("BBB".toList) 3⟩, ⟨102, .calc 202, .pep ("BBB".toList) 3⟩] := by
  constructor
  · decide
  · decide

/-- C2: the claim fails on the code — in the realisable trace where A's
match result arrives before B's extraction response, the render boundary
receives identifier 1's peaks (spectrum 101) paired with identifier 2's
sequence and charge (`BBB`, 3). -/
theorem C2_mixed_identity_render :
    wfTrace specEnvAB calcEnvAB coordInit traceMixed = true ∧
    (runTrace coordInit traceMixed).renders = [⟨101, .calc 201, .pep ("BBB".toList) 3⟩] := by
  constructor
  · decide
  · decide

/-! ### Backtracking-search lemmas -/

theorem descSearch_some_iff {α : Type} (f : Nat → Option α) (n : Nat) (b : α) :
    descSearch f n = some b ↔
      ∃ x, x ≤ n ∧ f x = some b ∧ ∀ y, x < y → y ≤ n → f y = none := by
  induction n with
  | zero =>
    simp only [descSearch]
    constructor
    · intro h
      exact ⟨0, Nat.le_refl 0, h, fun y h1 h2 => absurd (Nat.lt_of_lt_of_le h1 h2) (by omega)⟩
    · rintro ⟨x, hx, hfx, _⟩
      have : x = 0 := by omega
      rw [this] at hfx
      exact hfx
  | succ n ih =>
    cases hf : f (n + 1) with
    | some r =>
      simp only [descSearch, hf]
      constructor
      · intro h
        cases h
        exact ⟨n + 1, Nat.le_refl _, hf, fun y h1 h2 => by omega⟩
      · rintro ⟨x, hx, hfx, hmax⟩
        rcases Nat.lt_or_ge x (n + 1) with hlt | hge
        · rw [hmax (n + 1) hlt (Nat.le_refl _)] at hf
          cases hf
        · have : x = n + 1 := by omega
          rw [this] at hfx
          rw [hfx] at hf
          exact hf.symm
    | none =>
      simp only [descSearch, hf]
      rw [ih]
      constructor
      · rintro ⟨x, hx, hfx, hmax⟩
        refine ⟨x, by omega, hfx, ?_⟩
        intro y h1 h2
        rcases Nat.lt_or_ge y (n + 1) with hlt | hge
        · exact hmax y h1 (by omega)
        · have : y = n + 1 := by omega
          rw [this]
          exact hf
      · rintro ⟨x, hx, hfx, hmax⟩
        rcases Nat.lt_or_ge x (n + 1) with hlt | hge
        · exact ⟨x, by omega, hfx, fun y h1 h2 => hmax y h1 (by omega)⟩
        · have : x = n + 1 := by omega
          rw [this] at hfx
          rw [hfx] at hf
          cases hf

theorem descSearch_none_iff {α : Type} (f : Nat → Option α) (n : Nat) :
    descSearch f n = none ↔ ∀ x, x ≤ n → f x = none := by
  induction n with
  | zero =>
    simp only [descSearch]
    constructor
    · intro h x hx
      have : x = 0 := by omega
      rw [this]
      exact h
    · intro h
      exact h 0 (Nat.le_refl 0)
  | succ n ih =>
    cases hf : f (n + 1) with
    | some r =>
      simp only [descSearch, hf]
      constructor
      · intro h; cases h
      · intro h
        rw [h (n + 1) (Nat.le_refl _)] at hf
        cases hf
    | none =>
      simp only [descSearch, hf, ih]
      constructor
      · intro h x hx
        rcases Nat.lt_or_ge x (n + 1) with hlt | hge
        · exact h x (by omega)
        · have : x = n + 1 := by omega
          rw [this]
          exact hf
      · intro h x hx
        exact h x (by omega)

theorem descSearch_congr {α : Type} (f g : Nat → Option α) (n : Nat)
    (h : ∀ x, x ≤ n → f x = g x) : descSearch f n = descSearch g n := by
  induction n with
  | zero => exact h 0 (Nat.le_refl 0)
  | succ n ih =>
    simp only [descSearch, h (n + 1) (Nat.le_refl _)]
    cases g (n + 1) with
    | some r => rfl
    | none => exact ih (fun x hx => h x (by omega))

theorem descSearch_map {α β : Type} (f : Nat → Option α) (g : α → β) (n : Nat) :
    descSearch (fun x => (f x).map g) n = (descSearch f n).map g := by
  induction n with
  | zero => rfl
  | succ n ih =>
    simp only [descSearch]
    cases f (n + 1) with
    | some r => rfl
    | none => simpa using ih

theorem ascFind_some_iff {α : Type} (f : Nat → Option α) :
    ∀ (fuel i j : Nat) (b : α),
      ascFind f i fuel = some (j, b) ↔
        i ≤ j ∧ j < i + fuel ∧ f j = some b ∧ ∀ x, i ≤ x → x < j → f x = none := by
  intro fuel
  induction fuel with
  | zero =>
    intro i j b
    simp only [ascFind]
    constructor
    · intro h; cases h
    · rintro ⟨h1, h2, _, _⟩
      omega
  | succ fuel ih =>
    intro i j b
    cases hf : f i with
    | some r =>
      simp only [ascFind, hf, Option.some.injEq, Prod.mk.injEq]
      constructor
      · rintro ⟨h1, h2⟩
        rw [← h1, ← h2]
        exact ⟨Nat.le_refl i, by omega, hf, fun x hx1 hx2 => by omega⟩
      · rintro ⟨h1, h2, hfj, hmax⟩
        rcases Nat.lt_or_ge i j with hlt | hge
        · rw [hmax i (Nat.le_refl i) hlt] at hf
          cases hf
        · have hij : j = i := by omega
          rw [hij] at hfj
          rw [hfj] at hf
          cases hf
          exact ⟨hij.symm, rfl⟩
    | none =>
      simp only [ascFind, hf]
      rw [ih (i + 1) j b]
      constructor
      · rintro ⟨h1, h2, hfj, hmax⟩
        refine ⟨by omega, by omega, hfj, ?_⟩
        intro x hx1 hx2
        rcases Nat.lt_or_ge x (i + 1) with hlt | hge
        · have : x = i := by omega
          rw [this]
          exact hf
        · exact hmax x hge hx2
      · rintro ⟨h1, h2, hfj, hmax⟩
        rcases Nat.eq_or_lt_of_le h1 with heq | hlt
        · rw [← heq] at hfj
          rw [hfj] at hf
          cases hf
        · exact ⟨hlt, by omega, hfj, fun x hx1 hx2 => hmax x (by omega) hx2⟩

theorem ascFind_none_iff {α : Type} (f : Nat → Option α) :
    ∀ (fuel i : Nat),
      ascFind f i fuel = none ↔ ∀ x, i ≤ x → x < i + fuel → f x = none := by
  intro fuel
  induction fuel with
  | zero =>
    intro i
    simp only [ascFind]
    constructor
    · intro _ x hx1 hx2
      omega
    · intro _
      trivial
  | succ fuel ih =>
    intro i
    cases hf : f i with
    | some r =>
      simp only [ascFind, hf]
      constructor
      · intro h; cases h
      · intro h
        rw [h i (Nat.le_refl i) (by omega)] at hf
        cases hf
    | none =>
      simp only [ascFind, hf]
      rw [ih (i + 1)]
      constructor
      · intro h x hx1 hx2
        rcases Nat.lt_or_ge x (i + 1) with hlt | hge
        · have : x = i := by omega
          rw [this]
          exact hf
        · exact h x hge (by omega)
      · intro h x hx1 hx2
        exact h x (by omega) (by omega)

/-! ### Positional primitive lemmas -/

theorem idxGet?_drop {α : Type} : ∀ (d : Nat) (l : List α) (j : Nat),
    idxGet? (l.drop d) j = idxGet? l (d + j) := by
  intro d
  induction d with
  | zero =>
    intro l j
    simp [List.drop_zero]
  | succ d ih =>
    intro l j
    cases l with
    | nil => simp [idxGet?]
    | cons a t =>
      rw [List.drop_succ_cons]
      rw [ih t j]
      have : d + 1 + j = (d + j) + 1 := by omega
      rw [this]
      rfl

theorem idxGet?_take {α : Type} : ∀ (l : List α) (t j : Nat),
    idxGet? (l.take t) j = if j < t then idxGet? l j else none := by
  intro l
  induction l with
  | nil =>
    intro t j
    rw [List.take_nil]
    cases hj : decide (j < t) <;> simp [idxGet?]
  | cons a r ih =>
    intro t j
    cases t with
    | zero => simp [idxGet?]
    | succ t' =>
      rw [List.take_succ_cons]
      cases j with
      | zero => simp [idxGet?]
      | succ j' =>
        have h1 : idxGet? (a :: r.take t') (j' + 1) = idxGet? (r.take t') j' := rfl
        rw [h1, ih t' j']
        by_cases hj : j' < t'
        · simp [hj, idxGet?]
        · have : ¬(j' + 1 < t' + 1) := by omega
          simp [hj, this]

theorem idxGet?_some_lt {α : Type} : ∀ (l : List α) (j : Nat) (c : α),
    idxGet? l j = some c → j < l.length := by
  intro l
  induction l with
  | nil => intro j c h; cases h
  | cons a t ih =>
    intro j c h
    cases j with
    | zero => simp
    | succ j' =>
      have := ih j' c h
      simp only [List.length_cons]
      omega

theorem idxGet?_len_none {α : Type} : ∀ (l : List α) (j : Nat),
    l.length ≤ j → idxGet? l j = none := by
  intro l
  induction l with
  | nil => intro j _; rfl
  | cons a t ih =>
    intro j h
    cases j with
    | zero => simp at h
    | succ j' =>
      have : t.length ≤ j' := by simp at h; omega
      exact ih j' this

theorem countWhile_take {α : Type} (p : α → Bool) : ∀ (l : List α) (m : Nat),
    countWhile p (l.take m) = min (countWhile p l) m := by
  intro l
  induction l with
  | nil => intro m; simp [countWhile]
  | cons a t ih =>
    intro m
    cases m with
    | zero => simp [countWhile]
    | succ m' =>
      rw [List.take_succ_cons]
      cases hp : p a
      · simp [countWhile, hp]
      · simp [countWhile, hp, ih m']
        omega

theorem runLen_drop (l : List Char) (d j : Nat) (p : Char → Bool) :
    runLen (l.drop d) j p = runLen l (d + j) p := by
  simp only [runLen, List.drop_drop]

theorem runLen_take (l : List Char) (t j : Nat) (p : Char → Bool) :
    runLen (l.take t) j p = min (runLen l j p) (t - j) := by
  simp only [runLen, List.drop_take]
  exact countWhile_take p (l.drop j) (t - j)

/-! ### Literal-match lemmas -/

theorem litAt_drop : ∀ (lit : List Char) (l : List Char) (d j : Nat),
    litAt (l.drop d) j lit = litAt l (d + j) lit := by
  intro lit
  induction lit with
  | nil => intro l d j; rfl
  | cons c r ih =>
    intro l d j
    simp only [litAt, charAt, idxGet?_drop d l j, ih l d (j + 1)]
    have : d + (j + 1) = d + j + 1 := by omega
    rw [this]

theorem litAt_take_of_le : ∀ (lit : List Char) (l : List Char) (t j : Nat),
    j + lit.length ≤ t → litAt (l.take t) j lit = litAt l j lit := by
  intro lit
  induction lit with
  | nil => intro l t j _; rfl
  | cons c r ih =>
    intro l t j h
    simp only [List.length_cons] at h
    simp only [litAt, charAt, idxGet?_take l t j, if_pos (show j < t by omega),
      ih l t (j + 1) (by omega)]

theorem litAt_take_up : ∀ (lit : List Char) (l : List Char) (t j : Nat),
    litAt (l.take t) j lit = true → litAt l j lit = true := by
  intro lit
  induction lit with
  | nil => intro l t j _; rfl
  | cons c r ih =>
    intro l t j h
    simp only [litAt, Bool.and_eq_true, beq_iff_eq] at h ⊢
    rcases h with ⟨h1, h2⟩
    rw [charAt, idxGet?_take] at h1
    constructor
    · by_cases hj : j < t
      · rw [if_pos hj] at h1
        exact h1
      · rw [if_neg hj] at h1
        cases h1
    · exact ih l t (j + 1) h2

theorem litAt_end_le : ∀ (lit : List Char) (l : List Char) (j : Nat) (c : Char),
    litAt l j (c :: lit) = true → j + lit.length + 1 ≤ l.length := by
  intro lit
  induction lit with
  | nil =>
    intro l j c h
    simp only [litAt, Bool.and_eq_true, beq_iff_eq] at h
    have := idxGet?_some_lt l j c h.1
    simpa using this
  | cons c2 r ih =>
    intro l j c h
    simp only [litAt, Bool.and_eq_true, beq_iff_eq] at h
    have h2 : litAt l (j + 1) (c2 :: r) = true := by
      simp only [litAt, Bool.and_eq_true, beq_iff_eq]
      exact h.2
    have := ih l (j + 1) c2 h2
    simp only [List.length_cons]
    omega

/-! ### scanTailAt lemmas -/

theorem scanTailAt_bounds {s : List Char} {m e n : Nat}
    (h : scanTailAt s m = some (e, n)) : m + 7 ≤ e ∧ e ≤ s.length := by
  simp only [scanTailAt] at h
  split at h
  · split at h
    · rename_i hcond
      cases h
      rcases hcond with ⟨hr, hq⟩
      have hlt := idxGet?_some_lt s (m + 5 + runLen s (m + 5) Char.isDigit) '"' hq
      omega
    · cases h
  · cases h

theorem scanTailAt_drop (l : List Char) (d m : Nat) :
    scanTailAt l (d + m) = (scanTailAt (l.drop d) m).map (fun pr => (pr.1 + d, pr.2)) := by
  have e1 : litAt (l.drop d) m ("scan=".toList) = litAt l (d + m) ("scan=".toList) :=
    litAt_drop _ l d m
  have e2 : runLen (l.drop d) (m + 5) Char.isDigit = runLen l (d + m + 5) Char.isDigit := by
    rw [runLen_drop l d (m + 5) Char.isDigit]
    congr 1
  have e3 : ∀ r : Nat, charAt (l.drop d) (m + 5 + r) = charAt l (d + m + 5 + r) := by
    intro r
    simp only [charAt]
    rw [idxGet?_drop d l (m + 5 + r)]
    congr 1
    omega
  have e4 : (l.drop d).drop (m + 5) = l.drop (d + m + 5) := by
    rw [List.drop_drop]
    congr 1
  simp only [scanTailAt, e1, e2, e3, e4]
  by_cases hl : litAt l (d + m) ("scan=".toList) = true
  · rw [if_pos hl, if_pos hl]
    split
    · simp only [Option.map_some', Option.some.injEq, Prod.mk.injEq]
      exact ⟨by omega, trivial⟩
    · simp
  · rw [if_neg hl, if_neg hl]
    simp

theorem scanTailAt_take_up {l : List Char} {t m e n : Nat}
    (h : scanTailAt (l.take t) m = some (e, n)) : scanTailAt l m = some (e, n) := by
  simp only [scanTailAt] at h ⊢
  by_cases hlitt : litAt (l.take t) m ("scan=".toList) = true
  case neg => rw [if_neg hlitt] at h; cases h
  rw [if_pos hlitt] at h
  have hlit : litAt l m ("scan=".toList) = true := litAt_take_up _ l t m hlitt
  rw [if_pos hlit]
  by_cases hcond : 1 ≤ runLen (l.take t) (m + 5) Char.isDigit ∧
      charAt (l.take t) (m + 5 + runLen (l.take t) (m + 5) Char.isDigit) = some '"'
  case neg => rw [if_neg hcond] at h; cases h
  rw [if_pos hcond] at h
  obtain ⟨hr1, hq⟩ := hcond
  rw [charAt, idxGet?_take] at hq
  by_cases hlt : m + 5 + runLen (l.take t) (m + 5) Char.isDigit < t
  case neg => rw [if_neg hlt] at hq; cases hq
  rw [if_pos hlt] at hq
  have hrt : runLen (l.take t) (m + 5) Char.isDigit =
      min (runLen l (m + 5) Char.isDigit) (t - (m + 5)) := runLen_take l t (m + 5) _
  have hreq : runLen (l.take t) (m + 5) Char.isDigit = runLen l (m + 5) Char.isDigit := by
    omega
  cases h
  rw [← hreq]
  have hs1 : ((l.take t).drop (m + 5)).take (runLen (l.take t) (m + 5) Char.isDigit) =
      (l.drop (m + 5)).take (runLen (l.take t) (m + 5) Char.isDigit) := by
    rw [List.drop_take, List.take_take]
    congr 1
    exact min_eq_left (by omega)
  rw [if_pos ⟨hr1, by rw [charAt]; exact hq⟩, hs1]

theorem scanTailAt_take_down {l : List Char} {t m e n : Nat}
    (h : scanTailAt l m = some (e, n)) (het : e ≤ t) : scanTailAt (l.take t) m = some (e, n) := by
  simp only [scanTailAt] at h ⊢
  by_cases hlit : litAt l m ("scan=".toList) = true
  case neg => rw [if_neg hlit] at h; cases h
  rw [if_pos hlit] at h
  by_cases hcond : 1 ≤ runLen l (m + 5) Char.isDigit ∧
      charAt l (m + 5 + runLen l (m + 5) Char.isDigit) = some '"'
  case neg => rw [if_neg hcond] at h; cases h
  rw [if_pos hcond] at h
  obtain ⟨hr1, hq⟩ := hcond
  have he : e = m + 5 + runLen l (m + 5) Char.isDigit + 1 := by
    cases h; rfl
  have hlen5 : ("scan=".toList).length = 5 := by decide
  have hlitt : litAt (l.take t) m ("scan=".toList) = true := by
    rw [litAt_take_of_le _ l t m (by omega)]
    exact hlit
  rw [if_pos hlitt]
  have hrt : runLen (l.take t) (m + 5) Char.isDigit = runLen l (m + 5) Char.isDigit := by
    rw [runLen_take]
    omega
  rw [hrt]
  have hqt : charAt (l.take t) (m + 5 + runLen l (m + 5) Char.isDigit) = some '"' := by
    rw [charAt, idxGet?_take, if_pos (by omega : m + 5 + runLen l (m + 5) Char.isDigit < t)]
    exact hq
  rw [if_pos ⟨hr1, hqt⟩]
  have hs1 : ((l.take t).drop (m + 5)).take (runLen l (m + 5) Char.isDigit) =
      (l.drop (m + 5)).take (runLen l (m + 5) Char.isDigit) := by
    rw [List.drop_take, List.take_take]
    congr 1
    exact min_eq_left (by omega)
  rw [hs1]
  exact h

/-! ### idTailAt lemmas -/

theorem idTailAt_bounds {s : List Char} {k e n : Nat}
    (h : idTailAt s k = some (e, n)) : k + 11 ≤ e ∧ e ≤ s.length := by
  simp only [idTailAt] at h
  split at h
  · rcases (descSearch_some_iff _ _ _).1 h with ⟨mRel, _, hscan, _⟩
    have := scanTailAt_bounds hscan
    omega
  · cases h

theorem idTailAt_drop (l : List Char) (d k : Nat) :
    idTailAt l (d + k) = (idTailAt (l.drop d) k).map (fun pr => (pr.1 + d, pr.2)) := by
  have e1 : litAt (l.drop d) k ("id=".toList ++ ['"']) = litAt l (d + k) ("id=".toList ++ ['"']) :=
    litAt_drop _ l d k
  have e2 : runLen (l.drop d) (k + 4) (fun c => c ≠ '"') =
      runLen l (d + k + 4) (fun c => c ≠ '"') := by
    rw [runLen_drop l d (k + 4)]
    congr 1
  have einner : ∀ mRel : Nat, scanTailAt l (d + k + 4 + mRel) =
      (scanTailAt (l.drop d) (k + 4 + mRel)).map (fun pr => (pr.1 + d, pr.2)) := by
    intro mRel
    have h0 := scanTailAt_drop l d (k + 4 + mRel)
    have harith : d + (k + 4 + mRel) = d + k + 4 + mRel := by omega
    rw [harith] at h0
    exact h0
  simp only [idTailAt, e1, e2]
  by_cases hl : litAt l (d + k) ("id=".toList ++ ['"']) = true
  · rw [if_pos hl, if_pos hl]
    rw [descSearch_congr _
      (fun mRel => (scanTailAt (l.drop d) (k + 4 + mRel)).map (fun pr => (pr.1 + d, pr.2)))
      _ (fun x _ => einner x)]
    exact descSearch_map _ _ _
  · rw [if_neg hl, if_neg hl]
    simp

theorem idTailAt_take_up {l : List Char} {t k e n : Nat}
    (h : idTailAt (l.take t) k = some (e, n)) :
    ∃ e2 n2, idTailAt l k = some (e2, n2) := by
  simp only [idTailAt] at h ⊢
  by_cases hlitt : litAt (l.take t) k ("id=".toList ++ ['"']) = true
  case neg => rw [if_neg hlitt] at h; cases h
  rw [if_pos hlitt] at h
  have hlit : litAt l k ("id=".toList ++ ['"']) = true := litAt_take_up _ l t k hlitt
  rw [if_pos hlit]
  rcases (descSearch_some_iff _ _ _).1 h with ⟨mRel, hle, hscan, _⟩
  have hscanF := scanTailAt_take_up hscan
  have hrange : mRel ≤ runLen l (k + 4) (fun c => c ≠ '"') := by
    have := runLen_take l t (k + 4) (fun c => c ≠ '"')
    omega
  cases hd : descSearch (fun mRel => scanTailAt l (k + 4 + mRel))
      (runLen l (k + 4) (fun c => c ≠ '"')) with
  | some p =>
    obtain ⟨e2, n2⟩ := p
    exact ⟨e2, n2, rfl⟩
  | none =>
    exfalso
    have := (descSearch_none_iff _ _).1 hd mRel hrange
    rw [this] at hscanF
    cases hscanF

theorem idTailAt_take_down {l : List Char} {t k e n : Nat}
    (h : idTailAt l k = some (e, n)) (het : e ≤ t) : idTailAt (l.take t) k = some (e, n) := by
  have hb := idTailAt_bounds h
  simp only [idTailAt] at h ⊢
  by_cases hlit : litAt l k ("id=".toList ++ ['"']) = true
  case neg => rw [if_neg hlit] at h; cases h
  rw [if_pos hlit] at h
  have hlen4 : ("id=".toList ++ ['"']).length = 4 := by decide
  have hlitt : litAt (l.take t) k ("id=".toList ++ ['"']) = true := by
    rw [litAt_take_of_le _ l t k (by omega)]
    exact hlit
  rw [if_pos hlitt]
  rcases (descSearch_some_iff _ _ _).1 h with ⟨mRelF, hleF, hscanF, hmaxF⟩
  have hsb := scanTailAt_bounds hscanF
  have hrt : runLen (l.take t) (k + 4) (fun c => c ≠ '"') =
      min (runLen l (k + 4) (fun c => c ≠ '"')) (t - (k + 4)) :=
    runLen_take l t (k + 4) _
  rw [descSearch_some_iff]
  refine ⟨mRelF, by omega, scanTailAt_take_down hscanF het, ?_⟩
  intro y hy1 hy2
  cases hsy : scanTailAt (l.take t) (k + 4 + y) with
  | none => rfl
  | some p =>
    exfalso
    have hup : scanTailAt l (k + 4 + y) = some (p.1, p.2) := by
      have : scanTailAt (l.take t) (k + 4 + y) = some (p.1, p.2) := by
        rw [hsy]
      exact scanTailAt_take_up this
    have := hmaxF y hy1 (by omega)
    rw [this] at hup
    cases hup

/-! ### patMatchAt lemmas -/

theorem patMatchAt_bounds {s : List Char} {i e n : Nat}
    (h : patMatchAt s i = some (e, n)) : i + 21 ≤ e ∧ e ≤ s.length := by
  simp only [patMatchAt] at h
  split at h
  · rcases (descSearch_some_iff _ _ _).1 h with ⟨kRel, _, hid, _⟩
    have := idTailAt_bounds hid
    omega
  · cases h

theorem patMatchAt_ge_none {s : List Char} {i : Nat} (h : s.length ≤ i) :
    patMatchAt s i = none := by
  have hchar : charAt s i = none := idxGet?_len_none s i h
  have hexp : "<spectrum".toList = '<' :: "spectrum".toList := rfl
  have hlit : litAt s i ("<spectrum".toList) = false := by
    rw [hexp]
    simp [litAt, hchar]
  simp only [patMatchAt, hlit]
  simp

theorem patMatchAt_drop (l : List Char) (d i : Nat) :
    patMatchAt l (d + i) = (patMatchAt (l.drop d) i).map (fun pr => (pr.1 + d, pr.2)) := by
  have e1 : litAt (l.drop d) i ("<spectrum".toList) = litAt l (d + i) ("<spectrum".toList) :=
    litAt_drop _ l d i
  have e2 : charAt (l.drop d) (i + 9) = charAt l (d + i + 9) := by
    simp only [charAt]
    rw [idxGet?_drop d l (i + 9)]
    congr 1
  have e3 : runLen (l.drop d) (i + 10) (fun c => c ≠ '>') =
      runLen l (d + i + 10) (fun c => c ≠ '>') := by
    rw [runLen_drop l d (i + 10)]
    congr 1
  have einner : ∀ kRel : Nat, idTailAt l (d + i + 10 + kRel) =
      (idTailAt (l.drop d) (i + 10 + kRel)).map (fun pr => (pr.1 + d, pr.2)) := by
    intro kRel
    have h0 := idTailAt_drop l d (i + 10 + kRel)
    have harith : d + (i + 10 + kRel) = d + i + 10 + kRel := by omega
    rw [harith] at h0
    exact h0
  simp only [patMatchAt, e1, e2, e3]
  by_cases hl : (litAt l (d + i) ("<spectrum".toList) && (charAt l (d + i + 9)).any jsWs) = true
  · rw [if_pos hl, if_pos hl]
    rw [descSearch_congr _
      (fun kRel => (idTailAt (l.drop d) (i + 10 + kRel)).map (fun pr => (pr.1 + d, pr.2)))
      _ (fun x _ => einner x)]
    exact descSearch_map _ _ _
  · rw [if_neg hl, if_neg hl]
    simp

theorem patMatchAt_take_up {l : List Char} {t i e n : Nat}
    (h : patMatchAt (l.take t) i = some (e, n)) :
    ∃ e2 n2, patMatchAt l i = some (e2, n2) := by
  simp only [patMatchAt] at h ⊢
  by_cases hct : (litAt (l.take t) i ("<spectrum".toList) &&
      (charAt (l.take t) (i + 9)).any jsWs) = true
  case neg => rw [if_neg hct] at h; cases h
  rw [if_pos hct] at h
  rw [Bool.and_eq_true] at hct
  have hlit : litAt l i ("<spectrum".toList) = true := litAt_take_up _ l t i hct.1
  have hws : (charAt l (i + 9)).any jsWs = true := by
    cases hc : charAt (l.take t) (i + 9) with
    | none =>
      rw [hc] at hct
      simp [Option.any] at hct
    | some c =>
      have hc2 := hc
      rw [charAt, idxGet?_take] at hc2
      by_cases hlt : i + 9 < t
      · rw [if_pos hlt] at hc2
        rw [charAt, hc2]
        rw [hc] at hct
        simpa using hct.2
      · rw [if_neg hlt] at hc2
        cases hc2
  rw [if_pos (by rw [Bool.and_eq_true]; exact ⟨hlit, hws⟩)]
  rcases (descSearch_some_iff _ _ _).1 h with ⟨kRel, hle, hid, _⟩
  rcases idTailAt_take_up hid with ⟨e2, n2, hidF⟩
  have hrange : kRel ≤ runLen l (i + 10) (fun c => c ≠ '>') := by
    have := runLen_take l t (i + 10) (fun c => c ≠ '>')
    omega
  cases hd : descSearch (fun kRel => idTailAt l (i + 10 + kRel))
      (runLen l (i + 10) (fun c => c ≠ '>')) with
  | some p =>
    obtain ⟨e3, n3⟩ := p
    exact ⟨e3, n3, rfl⟩
  | none =>
    exfalso
    have := (descSearch_none_iff _ _).1 hd kRel hrange
    rw [this] at hidF
    cases hidF

theorem patMatchAt_take_down {l : List Char} {t i e n : Nat}
    (h : patMatchAt l i = some (e, n)) (het : e ≤ t) : patMatchAt (l.take t) i = some (e, n) := by
  have hb := patMatchAt_bounds h
  simp only [patMatchAt] at h ⊢
  by_cases hct : (litAt l i ("<spectrum".toList) && (charAt l (i + 9)).any jsWs) = true
  case neg => rw [if_neg hct] at h; cases h
  rw [if_pos hct] at h
  rw [Bool.and_eq_true] at hct
  have hlen9 : ("<spectrum".toList).length = 9 := by decide
  have hlitt : litAt (l.take t) i ("<spectrum".toList) = true := by
    rw [litAt_take_of_le _ l t i (by omega)]
    exact hct.1
  have hwst : (charAt (l.take t) (i + 9)).any jsWs = true := by
    have : charAt (l.take t) (i + 9) = charAt l (i + 9) := by
      rw [charAt, charAt, idxGet?_take, if_pos (by omega : i + 9 < t)]
    rw [this]
    exact hct.2
  rw [if_pos (by rw [Bool.and_eq_true]; exact ⟨hlitt, hwst⟩)]
  rcases (descSearch_some_iff _ _ _).1 h with ⟨kRelF, hleF, hidF, hmaxF⟩
  have hib := idTailAt_bounds hidF
  have hrt : runLen (l.take t) (i + 10) (fun c => c ≠ '>') =
      min (runLen l (i + 10) (fun c => c ≠ '>')) (t - (i + 10)) :=
    runLen_take l t (i + 10) _
  rw [descSearch_some_iff]
  refine ⟨kRelF, by omega, idTailAt_take_down hidF het, ?_⟩
  intro y hy1 hy2
  cases hsy : idTailAt (l.take t) (i + 10 + y) with
  | none => rfl
  | some p =>
    exfalso
    have hup : ∃ e2 n2, idTailAt l (i + 10 + y) = some (e2, n2) := by
      apply idTailAt_take_up
      rw [hsy]
    rcases hup with ⟨e2, n2, hup⟩
    have := hmaxF y hy1 (by omega)
    rw [this] at hup
    cases hup

/-! ### Chunk-window transfer lemmas -/

theorem chunk_up {src : List Char} {a c q e' n' : Nat}
    (h : patMatchAt ((src.drop a).take c) q = some (e', n')) :
    ∃ e2 n2, patMatchAt src (a + q) = some (e2, n2) := by
  rcases patMatchAt_take_up h with ⟨e1, n1, h1⟩
  refine ⟨e1 + a, n1, ?_⟩
  rw [patMatchAt_drop src a q, h1]
  rfl

theorem chunk_down {src : List Char} {a c q e n : Nat}
    (h : patMatchAt src (a + q) = some (e, n)) (hec : e ≤ a + c) :
    patMatchAt ((src.drop a).take c) q = some (e - a, n) := by
  rw [patMatchAt_drop src a q] at h
  rcases Option.map_eq_some'.1 h with ⟨pr, hpr, hsh⟩
  obtain ⟨e1, n1⟩ := pr
  have he1 : e1 + a = e ∧ n1 = n := by
    constructor
    · exact congrArg Prod.fst hsh
    · exact congrArg Prod.snd hsh
  have hdown := patMatchAt_take_down hpr (show e1 ≤ c by omega)
  rw [hdown]
  have : e1 = e - a := by omega
  rw [this, he1.2]

theorem chunkEqTakeDrop (src : List Char) (a c q : Nat) :
    patMatchAt (src.take (a + c)) (a + q) =
      (patMatchAt ((src.drop a).take c) q).map (fun pr => (pr.1 + a, pr.2)) := by
  have hsw : (src.take (a + c)).drop a = (src.drop a).take c := by
    rw [List.drop_take]
    congr 1
    omega
  rw [patMatchAt_drop (src.take (a + c)) a q, hsw]

/-! ### The exec loop under a unique match position -/

theorem findFrom_eq_ascFind (s : List Char) (i : Nat) :
    findFrom s i = ascFind (patMatchAt s) i (s.length + 1 - i) := by
  rw [findFrom]
  have : (fun p : Nat × Nat × Nat => (p.1, p.2)) = id := funext fun p => rfl
  rw [this, Option.map_id]
  rfl

theorem findFrom_some_iff (s : List Char) (i j e n : Nat) :
    findFrom s i = some (j, e, n) ↔
      i ≤ j ∧ patMatchAt s j = some (e, n) ∧
        ∀ x, i ≤ x → x < j → patMatchAt s x = none := by
  rw [findFrom_eq_ascFind]
  rw [ascFind_some_iff (patMatchAt s) (s.length + 1 - i) i j (e, n)]
  constructor
  · rintro ⟨h1, _, h3, h4⟩
    exact ⟨h1, h3, h4⟩
  · rintro ⟨h1, h2, h3⟩
    have hb := patMatchAt_bounds h2
    exact ⟨h1, by omega, h2, h3⟩

theorem findFrom_none_iff (s : List Char) (i : Nat) :
    findFrom s i = none ↔ ∀ x, i ≤ x → patMatchAt s x = none := by
  rw [findFrom_eq_ascFind]
  rw [ascFind_none_iff (patMatchAt s) (s.length + 1 - i) i]
  constructor
  · intro h x hx
    by_cases hxf : x < i + (s.length + 1 - i)
    · exact h x hx hxf
    · exact patMatchAt_ge_none (by omega)
  · intro h x hx _
    exact h x hx

theorem execGo_all_none {s : List Char} (hall : ∀ q, patMatchAt s q = none) :
    ∀ fuel pos, execGo s fuel pos = [] := by
  intro fuel pos
  cases fuel with
  | zero => rfl
  | succ f =>
    have : findFrom s pos = none := (findFrom_none_iff s pos).2 (fun x _ => hall x)
    simp [execGo, this]

theorem execGo_past {s : List Char} {t : Nat}
    (hu : ∀ q, q ≠ t → patMatchAt s q = none) :
    ∀ fuel pos, t < pos → execGo s fuel pos = [] := by
  intro fuel pos hpt
  cases fuel with
  | zero => rfl
  | succ f =>
    have : findFrom s pos = none := by
      rw [findFrom_none_iff]
      intro x hx
      exact hu x (by omega)
    simp [execGo, this]

theorem execGo_unique {s : List Char} {t e n : Nat}
    (hm : patMatchAt s t = some (e, n)) (hu : ∀ q, q ≠ t → patMatchAt s q = none) :
    ∀ fuel pos, 1 ≤ fuel →
      execGo s fuel pos = if pos ≤ t then [(t, e, n)] else [] := by
  intro fuel pos hf
  cases fuel with
  | zero => omega
  | succ f =>
    by_cases hpt : pos ≤ t
    · have hff : findFrom s pos = some (t, e, n) := by
        rw [findFrom_some_iff]
        exact ⟨hpt, hm, fun x hx1 hx2 => hu x (by omega)⟩
      have hb := patMatchAt_bounds hm
      have htail : execGo s f e = [] := execGo_past hu f e (by omega)
      simp [execGo, hff, htail, hpt]
    · have hff : findFrom s pos = none := by
        rw [findFrom_none_iff]
        intro x hx
        exact hu x (by omega)
      simp [execGo, hff, hpt]

theorem execAll_unique {s : List Char} {t e n : Nat}
    (hm : patMatchAt s t = some (e, n)) (hu : ∀ q, q ≠ t → patMatchAt s q = none) :
    execAll s = [(t, e, n)] := by
  rw [execAll, execGo_unique hm hu (s.length + 1) 0 (by omega)]
  simp

theorem execAll_none {s : List Char} (hall : ∀ q, patMatchAt s q = none) :
    execAll s = [] := by
  rw [execAll]
  exact execGo_all_none hall (s.length + 1) 0

/-! ### Association-list lemmas for the scan index -/

theorem mapLookup_setEntry_self {α β : Type} [DecidableEq α] :
    ∀ (m : List (α × β)) (k : α) (v : β), mapLookup (setEntry m k v) k = some v := by
  intro m
  induction m with
  | nil => intro k v; simp [setEntry, mapLookup]
  | cons kv t ih =>
    intro k v
    obtain ⟨k1, v1⟩ := kv
    by_cases hk : k1 = k
    · simp [setEntry, hk, mapLookup]
    · simp [setEntry, hk, mapLookup, ih]

theorem mapLookup_setEntry_ne {α β : Type} [DecidableEq α] :
    ∀ (m : List (α × β)) (k : α) (v : β) (k' : α), k' ≠ k →
      mapLookup (setEntry m k v) k' = mapLookup m k' := by
  intro m
  induction m with
  | nil =>
    intro k v k' h
    simp only [setEntry, mapLookup]
    rw [if_neg (fun hh => h hh.symm)]
  | cons kv t ih =>
    intro k v k' h
    obtain ⟨k1, v1⟩ := kv
    by_cases hk : k1 = k
    · simp only [setEntry, if_pos hk, mapLookup]
      have hne : ¬(k1 = k') := fun hh => h (hh.symm.trans hk)
      rw [if_neg hne, if_neg hne]
    · simp only [setEntry, if_neg hk, mapLookup]
      by_cases hk' : k1 = k'
      · rw [if_pos hk', if_pos hk']
      · rw [if_neg hk', if_neg hk', ih k v k' h]

theorem setEntry_mem_val {α β : Type} [DecidableEq α] :
    ∀ (m : List (α × β)) (k : α) (v : β) (kv : α × β),
      kv ∈ setEntry m k v → kv.2 = v ∨ kv ∈ m := by
  intro m
  induction m with
  | nil =>
    intro k v kv h
    simp [setEntry] at h
    left
    rw [h]
  | cons kv1 t ih =>
    intro k v kv h
    obtain ⟨k1, v1⟩ := kv1
    by_cases hk : k1 = k
    · simp only [setEntry, if_pos hk, List.mem_cons] at h
      rcases h with h | h
      · left; rw [h]
      · right; simp [h]
    · simp only [setEntry, if_neg hk, List.mem_cons] at h
      rcases h with h | h
      · right; simp [h]
      · rcases ih k v kv h with h2 | h2
        · left; exact h2
        · right; simp [h2]

theorem keys_setEntry_mem {α β : Type} [DecidableEq α] :
    ∀ (m : List (α × β)) (k : α) (v : β) (x : α),
      x ∈ (setEntry m k v).map Prod.fst ↔ x ∈ m.map Prod.fst ∨ x = k := by
  intro m
  induction m with
  | nil =>
    intro k v x
    simp [setEntry]
  | cons kv1 t ih =>
    intro k v x
    obtain ⟨k1, v1⟩ := kv1
    by_cases hk : k1 = k
    · simp only [setEntry, if_pos hk, List.map_cons, List.mem_cons]
      constructor
      · intro h
        rcases h with h | h
        · exact Or.inl (Or.inl h)
        · exact Or.inl (Or.inr h)
      · intro h
        rcases h with (h | h) | h
        · exact Or.inl h
        · exact Or.inr h
        · exact Or.inl (by rw [h, ← hk])
    · simp only [setEntry, if_neg hk, List.map_cons, List.mem_cons, ih]
      tauto

theorem setEntry_nodup {α β : Type} [DecidableEq α] :
    ∀ (m : List (α × β)) (k : α) (v : β),
      (m.map Prod.fst).Nodup → ((setEntry m k v).map Prod.fst).Nodup := by
  intro m
  induction m with
  | nil =>
    intro k v _
    simp [setEntry]
  | cons kv1 t ih =>
    intro k v hnd
    obtain ⟨k1, v1⟩ := kv1
    simp only [List.map_cons, List.nodup_cons] at hnd
    by_cases hk : k1 = k
    · simp only [setEntry, if_pos hk, List.map_cons, List.nodup_cons]
      exact hnd
    · simp only [setEntry, if_neg hk, List.map_cons, List.nodup_cons]
      constructor
      · intro hmem
        rcases (keys_setEntry_mem t k v k1).1 hmem with h | h
        · exact hnd.1 h
        · exact hk h
      · exact ih k v hnd.2

theorem mapLookup_some_mem {α β : Type} [DecidableEq α] :
    ∀ (m : List (α × β)) (k : α) (v : β), mapLookup m k = some v → (k, v) ∈ m := by
  intro m
  induction m with
  | nil => intro k v h; cases h
  | cons kv1 t ih =>
    intro k v h
    obtain ⟨k1, v1⟩ := kv1
    by_cases hk : k1 = k
    · simp only [mapLookup, if_pos hk] at h
      cases h
      simp [hk]
    · simp only [mapLookup, if_neg hk] at h
      simp [ih k v h]

theorem filter_key_nil {β : Type} (nKey : Nat) :
    ∀ (m : List (Nat × β)), nKey ∉ m.map Prod.fst →
      m.filter (fun kv => decide (kv.1 = nKey)) = [] := by
  intro m
  induction m with
  | nil => intro _; rfl
  | cons kv1 t ih =>
    intro h
    obtain ⟨k1, v1⟩ := kv1
    simp only [List.map_cons, List.mem_cons] at h
    have hk : ¬(k1 = nKey) := fun hh => h (Or.inl hh.symm)
    simp only [List.filter_cons, decide_eq_true_eq]
    rw [if_neg hk]
    exact ih (fun hh => h (Or.inr hh))

theorem filter_key_unique {β : Type} (nKey : Nat) (pVal : β) :
    ∀ (m : List (Nat × β)), (m.map Prod.fst).Nodup → (nKey, pVal) ∈ m →
      m.filter (fun kv => decide (kv.1 = nKey)) = [(nKey, pVal)] := by
  intro m
  induction m with
  | nil => intro _ h; cases h
  | cons kv1 t ih =>
    intro hnd hmem
    obtain ⟨k1, v1⟩ := kv1
    simp only [List.map_cons, List.nodup_cons] at hnd
    rcases List.mem_cons.1 hmem with h | h
    · have hk1 : k1 = nKey := (congrArg Prod.fst h).symm
      have hv1 : v1 = pVal := (congrArg Prod.snd h).symm
      simp only [List.filter_cons, decide_eq_true_eq]
      rw [if_pos hk1]
      rw [filter_key_nil nKey t (by rw [← hk1]; exact hnd.1)]
      rw [hk1, hv1]
    · have hk1 : ¬(k1 = nKey) := by
        intro hh
        apply hnd.1
        rw [hh]
        exact List.mem_map_of_mem Prod.fst h
      simp only [List.filter_cons, decide_eq_true_eq]
      rw [if_neg hk1]
      exact ih hnd.2 h

/-! ### Per-chunk behaviour under a unique global match -/

theorem chunk_uniq_pos {src : List Char} {p : Nat}
    (hu : ∀ q, patMatchAt src q ≠ none → q = p) (a c : Nat) :
    ∀ q, patMatchAt ((src.drop a).take c) q ≠ none → a + q = p := by
  intro q hq
  cases hc : patMatchAt ((src.drop a).take c) q with
  | none => exact absurd hc hq
  | some pr =>
    obtain ⟨e', n'⟩ := pr
    rcases chunk_up hc with ⟨e2, n2, h2⟩
    exact hu (a + q) (by rw [h2]; intro hh; cases hh)

theorem chunkExec_cases (src : List Char) {p : Nat}
    (hu : ∀ q, patMatchAt src q ≠ none → q = p) (a c : Nat) :
    execAll ((src.drop a).take c) = [] ∨
    (a ≤ p ∧ ∃ e' n', execAll ((src.drop a).take c) = [(p - a, e', n')]) := by
  by_cases hap : a ≤ p
  · cases hc : patMatchAt ((src.drop a).take c) (p - a) with
    | some pr =>
      obtain ⟨e', n'⟩ := pr
      right
      refine ⟨hap, e', n', execAll_unique hc ?_⟩
      intro q hq
      cases hcq : patMatchAt ((src.drop a).take c) q with
      | none => rfl
      | some pr2 =>
        exfalso
        have := chunk_uniq_pos hu a c q (by rw [hcq]; intro hh; cases hh)
        omega
    | none =>
      left
      apply execAll_none
      intro q
      by_cases hqt : q = p - a
      · rw [hqt]; exact hc
      · cases hcq : patMatchAt ((src.drop a).take c) q with
        | none => rfl
        | some pr2 =>
          exfalso
          have := chunk_uniq_pos hu a c q (by rw [hcq]; intro hh; cases hh)
          omega
  · left
    apply execAll_none
    intro q
    cases hcq : patMatchAt ((src.drop a).take c) q with
    | none => rfl
    | some pr2 =>
      exfalso
      have := chunk_uniq_pos hu a c q (by rw [hcq]; intro hh; cases hh)
      omega

theorem chunkExec_full (src : List Char) {p e n : Nat} (c : Nat)
    (hm : patMatchAt src p = some (e, n))
    (hu : ∀ q, patMatchAt src q ≠ none → q = p)
    (a : Nat) (hap : a ≤ p) (hec : e ≤ a + c) :
    execAll ((src.drop a).take c) = [(p - a, e - a, n)] := by
  have hm2 : patMatchAt src (a + (p - a)) = some (e, n) := by
    rw [(by omega : a + (p - a) = p)]
    exact hm
  have hd : patMatchAt ((src.drop a).take c) (p - a) = some (e - a, n) :=
    chunk_down hm2 hec
  apply execAll_unique hd
  intro q hq
  cases hcq : patMatchAt ((src.drop a).take c) q with
  | none => rfl
  | some pr2 =>
    exfalso
    have := chunk_uniq_pos hu a c q (by rw [hcq]; intro hh; cases hh)
    omega

/-! ### The chunked scan records the unique marker at its absolute start -/

theorem buildGo_main (c o : Nat) (src : List Char) (p e n : Nat)
    (hco : o < c)
    (hm : patMatchAt src p = some (e, n))
    (hu : ∀ q, patMatchAt src q ≠ none → q = p) :
    ∀ fuel offset acc,
      src.length + 1 ≤ fuel + offset →
      (∀ kv ∈ acc, kv.2 = p) →
      (acc.map Prod.fst).Nodup →
      (mapLookup acc n = some p ∨
        ∃ j : Nat, offset + j * (c - o) ≤ p ∧ e ≤ offset + j * (c - o) + c) →
      (∀ kv ∈ buildGo c o src fuel offset acc, kv.2 = p) ∧
      ((buildGo c o src fuel offset acc).map Prod.fst).Nodup ∧
      mapLookup (buildGo c o src fuel offset acc) n = some p := by
  intro fuel
  induction fuel with
  | zero =>
    intro offset acc hfc hval hnd hdisj
    have hb := patMatchAt_bounds hm
    simp only [buildGo]
    rcases hdisj with h | ⟨j, hj1, hj2⟩
    · exact ⟨hval, hnd, h⟩
    · exfalso
      have : offset ≤ offset + j * (c - o) := Nat.le_add_right _ _
      omega
  | succ fuel ih =>
    intro offset acc hfc hval hnd hdisj
    by_cases hoff : offset < src.length
    case neg =>
      simp only [buildGo, if_neg hoff]
      rcases hdisj with h | ⟨j, hj1, hj2⟩
      · exact ⟨hval, hnd, h⟩
      · exfalso
        have hb := patMatchAt_bounds hm
        have : offset ≤ offset + j * (c - o) := Nat.le_add_right _ _
        omega
    case pos =>
      simp only [buildGo, if_pos hoff]
      rcases chunkExec_cases src hu offset c with hce | ⟨hap, e', n', hce⟩
      · rw [hce]
        apply ih (offset + (c - o)) acc (by omega) hval hnd
        rcases hdisj with h | ⟨j, hj1, hj2⟩
        · exact Or.inl h
        · right
          cases j with
          | zero =>
            exfalso
            simp only [Nat.zero_mul, Nat.add_zero] at hj1 hj2
            have := chunkExec_full src c hm hu offset hj1 hj2
            rw [hce] at this
            cases this
          | succ j' =>
            rw [Nat.succ_mul] at hj1 hj2
            exact ⟨j', by omega, by omega⟩
      · rw [hce]
        have hins : insertChunk offset acc [(p - offset, e', n')] = setEntry acc n' p := by
          simp only [insertChunk, List.foldl]
          congr 1
          omega
        rw [hins]
        have hval' : ∀ kv ∈ setEntry acc n' p, kv.2 = p := by
          intro kv hkv
          rcases setEntry_mem_val acc n' p kv hkv with h | h
          · exact h
          · exact hval kv h
        have hnd' := setEntry_nodup acc n' p hnd
        apply ih (offset + (c - o)) _ (by omega) hval' hnd'
        rcases hdisj with h | ⟨j, hj1, hj2⟩
        · left
          by_cases hnn : n' = n
          · rw [hnn, mapLookup_setEntry_self]
          · rw [mapLookup_setEntry_ne acc n' p n (fun hh => hnn hh.symm)]
            exact h
        · cases j with
          | zero =>
            left
            simp only [Nat.zero_mul, Nat.add_zero] at hj1 hj2
            have hfull := chunkExec_full src c hm hu offset hj1 hj2
            rw [hce] at hfull
            have hn' : n' = n :=
              congrArg (fun l : List (Nat × Nat × Nat) => (l.headD (0, 0, 0)).2.2) hfull
            rw [hn', mapLookup_setEntry_self]
          | succ j' =>
            right
            rw [Nat.succ_mul] at hj1 hj2
            exact ⟨j', by omega, by omega⟩

/-- C3 (amended): for every source, chunk size `c` and overlap `o` with
`o < c` (the code uses 10 MiB and 1 KiB), and every identifier whose
marker matches at exactly one position of the source with the match
spanning at most the overlap window, the built index has exactly one
entry for that identifier, and its offset is the absolute start of the
marker. -/
theorem C3_amended_unique_marker_offset (src : List Char) (c o p e n : Nat)
    (hco : o < c)
    (hm : patMatchAt src p = some (e, n))
    (hu : ∀ q, q < src.length → q ≠ p → patMatchAt src q = none)
    (hs : e ≤ p + o) :
    (buildIndexMap c o src).filter (fun kv => decide (kv.1 = n)) = [(n, p)] := by
  have hu' : ∀ q, patMatchAt src q ≠ none → q = p := by
    intro q hq
    by_cases hql : q < src.length
    · by_contra hne
      exact hq (hu q hql hne)
    · exact absurd (patMatchAt_ge_none (by omega)) hq
  have hdiv : (p / (c - o)) * (c - o) ≤ p := Nat.div_mul_le_self p (c - o)
  have hmod : p % (c - o) < c - o := Nat.mod_lt _ (by omega)
  have hdm : (c - o) * (p / (c - o)) + p % (c - o) = p := Nat.div_add_mod p (c - o)
  have hcm : (c - o) * (p / (c - o)) = (p / (c - o)) * (c - o) := Nat.mul_comm _ _
  have hmain := buildGo_main c o src p e n hco hm hu' (src.length + 1) 0 []
    (by omega) (by intro kv h; cases h) (by simp)
    (Or.inr ⟨p / (c - o), by omega, by omega⟩)
  exact filter_key_unique n p (buildIndexMap c o src) hmain.2.1
    (mapLookup_some_mem _ n p hmain.2.2)

/-- C3 counterexample: the source consisting of a single marker of span
21 (greater than the overlap window 3), indexed with chunk size 16 and
overlap 3, both chunks cut the marker, so the identifier 7 — whose marker
occurs exactly once, at offset 0 — gets no entry at all, refuting the
claim for chunkings whose overlap window is smaller than the marker.  At
the code's own constants the same failure needs a marker longer than
1 KiB straddling a 10 MiB boundary. -/
theorem C3_counterexample :
    (3 : Nat) < 16 ∧
    patMatchAt srcStraddle 0 = some (21, 7) ∧
    (∀ q, q < srcStraddle.length → q ≠ 0 → patMatchAt srcStraddle q = none) ∧
    (buildIndexMap 16 3 srcStraddle).filter (fun kv => decide (kv.1 = 7)) = [] :=
  ⟨by decide, by decide, by decide, by decide⟩

/-- C3 witness: the marker `scan=42` at offset 2 of `srcUnique` spans 22
characters, within the overlap 25; chunk size 40 records exactly one
entry `(42, 2)`. -/
theorem C3_amended_witness :
    (25 : Nat) < 40 ∧
    patMatchAt srcUnique 2 = some (24, 42) ∧
    (∀ q, q < srcUnique.length → q ≠ 2 → patMatchAt srcUnique q = none) ∧
    (24 : Nat) ≤ 2 + 25 ∧
    (buildIndexMap 40 25 srcUnique).filter (fun kv => decide (kv.1 = 42)) = [(42, 2)] :=
  ⟨by decide, by decide, by decide, by decide,
    C3_amended_unique_marker_offset srcUnique 40 25 2 24 42 (by decide) (by decide)
      (by decide) (by decide)⟩

/-! ### Chunk-size invariance under a short, truncation-free marker -/

theorem chunkExec_empty_of_cut (src : List Char) {p e : Nat} (c : Nat)
    (hu : ∀ q, patMatchAt src q ≠ none → q = p)
    (htr : ∀ t, t < e → p < t → patMatchAt (src.take t) p = none)
    (a : Nat) (hap : a ≤ p) (hcut : a + c < e) :
    execAll ((src.drop a).take c) = [] := by
  apply execAll_none
  intro q
  by_cases hq : q = p - a
  · by_cases hpc : p < a + c
    · have htk := htr (a + c) hcut hpc
      rw [hq]
      have hce := chunkEqTakeDrop src a c (p - a)
      rw [(by omega : a + (p - a) = p), htk] at hce
      exact (Option.map_eq_none').1 hce.symm
    · rw [hq]
      cases hcm : patMatchAt ((src.drop a).take c) (p - a) with
      | none => rfl
      | some pr =>
        exfalso
        obtain ⟨e1, n1⟩ := pr
        have hb := patMatchAt_bounds hcm
        have hlen : ((src.drop a).take c).length ≤ c := List.length_take_le c _
        omega
  · cases hcm : patMatchAt ((src.drop a).take c) q with
    | none => rfl
    | some pr =>
      exfalso
      have := chunk_uniq_pos hu a c q (by rw [hcm]; intro hh; cases hh)
      omega

theorem buildGo_exact (c o : Nat) (src : List Char) (p e n : Nat)
    (hco : o < c)
    (hm : patMatchAt src p = some (e, n))
    (hu : ∀ q, patMatchAt src q ≠ none → q = p)
    (htr : ∀ t, t < e → p < t → patMatchAt (src.take t) p = none) :
    ∀ fuel offset acc,
      src.length + 1 ≤ fuel + offset →
      ((acc = [] ∧ ∃ j : Nat, offset + j * (c - o) ≤ p ∧ e ≤ offset + j * (c - o) + c) ∨
        acc = [(n, p)]) →
      buildGo c o src fuel offset acc = [(n, p)] := by
  intro fuel
  induction fuel with
  | zero =>
    intro offset acc hfc hdisj
    have hb := patMatchAt_bounds hm
    simp only [buildGo]
    rcases hdisj with ⟨_, j, hj1, hj2⟩ | h
    · exfalso
      have : offset ≤ offset + j * (c - o) := Nat.le_add_right _ _
      omega
    · exact h
  | succ fuel ih =>
    intro offset acc hfc hdisj
    by_cases hoff : offset < src.length
    case neg =>
      simp only [buildGo, if_neg hoff]
      rcases hdisj with ⟨_, j, hj1, hj2⟩ | h
      · exfalso
        have hb := patMatchAt_bounds hm
        have : offset ≤ offset + j * (c - o) := Nat.le_add_right _ _
        omega
      · exact h
    case pos =>
      simp only [buildGo, if_pos hoff]
      by_cases hap : offset ≤ p
      · by_cases hec : e ≤ offset + c
        · -- containing chunk: the entry (n, p) is written
          have hfull := chunkExec_full src c hm hu offset hap hec
          rw [hfull]
          have hins : ∀ acc0 : List (Nat × Nat),
              insertChunk offset acc0 [(p - offset, e - offset, n)] = setEntry acc0 n p := by
            intro acc0
            simp only [insertChunk, List.foldl]
            congr 1
            omega
          rcases hdisj with ⟨hacc, _⟩ | hacc
          · rw [hacc, hins]
            exact ih (offset + (c - o)) _ (by omega) (Or.inr rfl)
          · rw [hacc, hins]
            have : setEntry [(n, p)] n p = [(n, p)] := by simp [setEntry]
            rw [this]
            exact ih (offset + (c - o)) _ (by omega) (Or.inr rfl)
        · -- the chunk cuts the marker: nothing is recorded
          have hempty := chunkExec_empty_of_cut src c hu htr offset hap (by omega)
          rw [hempty]
          rcases hdisj with ⟨hacc, j, hj1, hj2⟩ | hacc
          · rw [hacc]
            apply ih (offset + (c - o)) [] (by omega)
            left
            refine ⟨rfl, ?_⟩
            cases j with
            | zero =>
              exfalso
              simp only [Nat.zero_mul, Nat.add_zero] at hj1 hj2
              omega
            | succ j' =>
              rw [Nat.succ_mul] at hj1 hj2
              exact ⟨j', by omega, by omega⟩
          · rw [hacc]
            exact ih (offset + (c - o)) _ (by omega) (Or.inr rfl)
      · -- the chunk lies beyond the marker: nothing is recorded
        have hempty : execAll ((src.drop offset).take c) = [] := by
          apply execAll_none
          intro q
          cases hcm : patMatchAt ((src.drop offset).take c) q with
          | none => rfl
          | some pr =>
            exfalso
            have := chunk_uniq_pos hu offset c q (by rw [hcm]; intro hh; cases hh)
            omega
        rw [hempty]
        rcases hdisj with ⟨hacc, j, hj1, hj2⟩ | hacc
        · exfalso
          have : offset ≤ offset + j * (c - o) := Nat.le_add_right _ _
          omega
        · rw [hacc]
          exact ih (offset + (c - o)) _ (by omega) (Or.inr rfl)

/-- C4 (amended): for every source whose marker pattern matches at
exactly one position, with the match spanning at most the overlap window
and no truncation of the source cutting the match into a still-matching
prefix, indexing with any two chunk sizes larger than the overlap yields
the identical mapping — the single identifier recorded exactly once at
its absolute start. -/
theorem C4_amended_chunk_invariance (src : List Char) (o c1 c2 p e n : Nat)
    (h1 : o < c1) (h2 : o < c2)
    (hm : patMatchAt src p = some (e, n))
    (hu : ∀ q, q < src.length → q ≠ p → patMatchAt src q = none)
    (hs : e ≤ p + o)
    (htr : ∀ t, t < e → p < t → patMatchAt (src.take t) p = none) :
    buildIndexMap c1 o src = buildIndexMap c2 o src ∧ buildIndexMap c1 o src = [(n, p)] := by
  have hu' : ∀ q, patMatchAt src q ≠ none → q = p := by
    intro q hq
    by_cases hql : q < src.length
    · by_contra hne
      exact hq (hu q hql hne)
    · exact absurd (patMatchAt_ge_none (by omega)) hq
  have key : ∀ c, o < c → buildIndexMap c o src = [(n, p)] := by
    intro c hc
    have hdiv : (p / (c - o)) * (c - o) ≤ p := Nat.div_mul_le_self p (c - o)
    have hmod : p % (c - o) < c - o := Nat.mod_lt _ (by omega)
    have hdm : (c - o) * (p / (c - o)) + p % (c - o) = p := Nat.div_add_mod p (c - o)
    have hcm : (c - o) * (p / (c - o)) = (p / (c - o)) * (c - o) := Nat.mul_comm _ _
    exact buildGo_exact c o src p e n hc hm hu' htr (src.length + 1) 0 []
      (by omega) (Or.inl ⟨rfl, p / (c - o), by omega, by omega⟩)
  exact ⟨(key c1 h1).trans (key c2 h2).symm, key c1 h1⟩

/-- C4 counterexample: the single-marker source of span 21 indexed with
overlap 3 gives the mapping `[(7, 0)]` at chunk size 30 but the empty
mapping at chunk size 16, although both chunk sizes exceed the overlap —
chunk-size invariance fails when a marker outspans the overlap window. -/
theorem C4_counterexample :
    (3 : Nat) < 16 ∧ (3 : Nat) < 30 ∧
    buildIndexMap 30 3 srcStraddle = [(7, 0)] ∧
    buildIndexMap 16 3 srcStraddle = [] :=
  ⟨by decide, by decide, by decide, by decide⟩

/-- C4 witness: the short unique marker of `srcUnique` (span 22, overlap
25, never matching when truncated) is recorded as `[(42, 2)]` by chunk
sizes 40 and 26 alike. -/
theorem C4_amended_witness :
    ((25 : Nat) < 40 ∧ (25 : Nat) < 26 ∧
      patMatchAt srcUnique 2 = some (24, 42) ∧
      (∀ q, q < srcUnique.length → q ≠ 2 → patMatchAt srcUnique q = none) ∧
      (24 : Nat) ≤ 2 + 25 ∧
      (∀ t, t < 24 → 2 < t → patMatchAt (srcUnique.take t) 2 = none)) ∧
    buildIndexMap 40 25 srcUnique = buildIndexMap 26 25 srcUnique ∧
    buildIndexMap 40 25 srcUnique = [(42, 2)] :=
  ⟨⟨by decide, by decide, by decide, by decide, by decide, by decide⟩,
    C4_amended_chunk_invariance srcUnique 25 40 26 2 24 42 (by decide) (by decide)
      (by decide) (by decide) (by decide) (by decide)⟩
